import Mathlib

/-!
A shallow embedding of the streaming JPEG scan decoder found in
`src/image/jpeg/scan.go`, together with theorems about its behaviour.

The entropy-coded bitstream primitives (`decodeHuffman`, `decodeBit`,
`decodeBits`, `receiveExtend`, `readFull`) are external to the module under
study; following the external-interface contract, they are modelled as
oracles that pop prerecorded results from dedicated lists held in the
decoder state.  The end-of-band run counter, the abstract bit-reader
state, the progressive coefficient store and the scratch tile buffer are
all explicit fields of that state.  Callback invocations and block visits
are recorded in an event trace so that traversal order and emission order
can be stated as theorems.
-/

namespace JpegScan

/-- Errors surfaced by the decoder: `format` mirrors `FormatError`,
`unsupported` mirrors `UnsupportedError`, and `ioErr` stands for any error
propagated unchanged from the underlying byte source or entropy
primitives (for the oracle model: an exhausted oracle list). -/
inductive JErr where
  | format (msg : String)
  | unsupported (msg : String)
  | ioErr
  deriving DecidableEq, Repr

/-- An 8x8 coefficient block: 64 signed values in natural (row-major)
order, the `block` type of the source.  Indices outside `0..63` are never
written by the decoder. -/
abbrev Block := Nat → Int

/-- The all-zero block, `block{}` in the source. -/
def zeroBlock : Block := fun _ => 0

/-- `blockSize` from the source package. -/
def blockSize : Nat := 64

/-- `maxComponents` from the source package. -/
def maxComponents : Nat := 4

/-- Modelled from the spec: the fixed zig-zag to natural-order permutation
table (`unzig` in the source package, whose defining file is not under
`src/`); these are the standard JPEG zig-zag positions mentioned in the
spec's glossary. -/
def unzigTable : List Nat :=
  [0, 1, 8, 16, 9, 2, 3, 10,
   17, 24, 32, 25, 18, 11, 4, 5,
   12, 19, 26, 33, 40, 48, 41, 34,
   27, 20, 13, 6, 7, 14, 21, 28,
   35, 42, 49, 56, 57, 50, 43, 36,
   29, 22, 15, 23, 30, 37, 44, 51,
   58, 59, 52, 45, 38, 31, 39, 46,
   53, 60, 61, 54, 47, 55, 62, 63]

/-- `unzig[z]`, the natural-order position of zig-zag index `z`. -/
def unzig (z : Nat) : Nat := unzigTable.getD z 0

/-- Modelled from the spec: the first restart marker byte `RST0`
(`rst0Marker` in the source package, defined outside `src/`). -/
def rst0Marker : Nat := 0xd0

/-- Modelled from the spec: the last restart marker byte `RST7`
(`rst7Marker` in the source package, defined outside `src/`). -/
def rst7Marker : Nat := 0xd7

/-- Modelled from the spec: the largest Huffman table selector
(`maxTh` in the source package, defined outside `src/`); selectors range
over `0..3`. -/
def maxTh : Nat := 3

/-- The mutable decoder state threaded through the scan decoder.  The
five lists are the oracles for the external primitives; `bitsA` stands
for the opaque contents of the bit-reader accumulator `d.bits` (reset to
`0` by `d.bits = bits{}`); `eobRun` is the `uint16` end-of-band run
counter `d.eobRun`; `dc` is the per-component DC predictor array;
`store` is the progressive coefficient store `d.progCoeffs`, keyed by
component index and block index; `sbuf` is the package-level scratch
buffer `processSOSBuf`. -/
@[ext]
structure DecState where
  huffS : List Nat
  bitS : List Bool
  bitsS : List Nat
  extS : List Int
  byteS : List Nat
  bitsA : Nat
  eobRun : Nat
  dc : Nat → Int
  store : Nat × Nat → Block
  sbuf : Nat → Nat

/-- Modelled from the spec: `decodeHuffman(table) -> (symbol, error)`, an
external entropy primitive; the oracle pops the next prerecorded symbol
(a byte). -/
def decodeHuffman (d : DecState) : Except JErr (Nat × DecState) :=
  match d.huffS with
  | [] => .error .ioErr
  | v :: r => .ok (v % 256, { d with huffS := r })

/-- Modelled from the spec: `decodeBit() -> (bit, error)`, an external
entropy primitive. -/
def decodeBit (d : DecState) : Except JErr (Bool × DecState) :=
  match d.bitS with
  | [] => .error .ioErr
  | v :: r => .ok (v, { d with bitS := r })

/-- Modelled from the spec: `decodeBits(n) -> (value, error)`, an external
entropy primitive returning an `n`-bit value (the source masks the result
to `n` bits). -/
def decodeBits (n : Nat) (d : DecState) : Except JErr (Nat × DecState) :=
  match d.bitsS with
  | [] => .error .ioErr
  | v :: r => .ok (v % 2 ^ n, { d with bitsS := r })

/-- Modelled from the spec: `receiveExtend(size) -> (signedValue, error)`,
the external sign-extension primitive of section F.2.2.1. -/
def receiveExtend (_size : Nat) (d : DecState) : Except JErr (Int × DecState) :=
  match d.extS with
  | [] => .error .ioErr
  | v :: r => .ok (v, { d with extS := r })

/-- Modelled from the spec: `readFull(buf) -> error`, which fills a buffer
of `n` bytes exactly or fails; the oracle pops `n` bytes from the byte
list. -/
def readFull (n : Nat) (d : DecState) : Except JErr (List Nat × DecState) :=
  if d.byteS.length < n then .error .ioErr
  else .ok ((d.byteS.take n).map (· % 256), { d with byteS := d.byteS.drop n })

/-- The first-pass AC decoding loop of `processSOS`
(section F.2.2.2, source lines 259-293), with an explicit fuel argument
that makes the strictly increasing `zig` cursor structurally terminating;
callers supply `zigEnd + 1 - zig` fuel, which is always sufficient. -/
def acLoopF (zigEnd al : Nat) : Nat → Nat → Block → DecState →
    Except JErr (Block × DecState)
  | fuel, zig, b, d =>
    if zig > zigEnd then .ok (b, d)
    else
      match fuel with
      | 0 => .error .ioErr
      | fuel + 1 =>
        match decodeHuffman d with
        | .error e => .error e
        | .ok (value, d) =>
          let val0 := value / 16
          let val1 := value % 16
          if val1 ≠ 0 then
            let zig := zig + val0
            if zig > zigEnd then .ok (b, d)
            else
              match receiveExtend val1 d with
              | .error e => .error e
              | .ok (ac, d) =>
                acLoopF zigEnd al fuel (zig + 1)
                  (Function.update b (unzig zig) (ac * 2 ^ al)) d
          else
            if val0 ≠ 15 then
              let eob := (1 <<< val0) % 65536
              match
                (if val0 ≠ 0 then
                  match decodeBits val0 d with
                  | .error e => .error e
                  | .ok (bv, d) => .ok (eob ||| bv % 65536, d)
                else .ok (eob, d) : Except JErr (Nat × DecState)) with
              | .error e => .error e
              | .ok (eob, d) => .ok (b, { d with eobRun := eob - 1 })
            else acLoopF zigEnd al fuel (zig + 15 + 1) b d

/-- Source lines 256-294: either consume one unit of a pending
end-of-band run, or decode the AC coefficients of the current block. -/
def acPhase (zigEnd al zig : Nat) (b : Block) (d : DecState) :
    Except JErr (Block × DecState) :=
  if zig ≤ zigEnd ∧ d.eobRun > 0 then .ok (b, { d with eobRun := d.eobRun - 1 })
  else acLoopF zigEnd al (zigEnd + 1 - zig) zig b d

/-- One scan component as parsed from the SOS header: the frame component
index and the DC/AC Huffman table selectors. -/
structure ScanComp where
  compIndex : Nat
  td : Nat
  ta : Nat
  deriving DecidableEq, Repr

/-- A parsed scan descriptor: participating components, spectral
selection bounds and successive approximation levels. -/
structure ScanCtx where
  comps : List ScanComp
  zigStart : Nat
  zigEnd : Nat
  ah : Nat
  al : Nat
  deriving DecidableEq, Repr

/-- The first-pass (`ah = 0`) decoding of one block, source lines
236-295: decode the DC coefficient when `zigStart = 0` (section F.2.2.1),
then hand over to the AC phase. -/
def firstPassBlock (sc : ScanCtx) (compIndex : Nat) (b : Block) (d : DecState) :
    Except JErr (Block × DecState) :=
  if sc.zigStart = 0 then
    match decodeHuffman d with
    | .error e => .error e
    | .ok (value, d) =>
      if value > 16 then .error (.unsupported "excessive DC component")
      else
        match receiveExtend value d with
        | .error e => .error e
        | .ok (dcDelta, d) =>
          let ndc := d.dc compIndex + dcDelta
          acPhase sc.zigEnd sc.al 1
            (Function.update b 0 (ndc * 2 ^ sc.al))
            { d with dc := Function.update d.dc compIndex ndc }
  else acPhase sc.zigEnd sc.al sc.zigStart b d

/-- `refineNonZeroes` (source lines 495-519) with explicit fuel: refines
the non-zero entries of `b` in zig-zag order, skipping over the first
`nz` zero entries when `nz ≥ 0`. -/
def refineNZF (zigEnd : Nat) (delta : Int) : Nat → Nat → Int → Block → DecState →
    Except JErr (Nat × Block × DecState)
  | fuel, zig, nz, b, d =>
    if zig > zigEnd then .ok (zig, b, d)
    else
      match fuel with
      | 0 => .error .ioErr
      | fuel + 1 =>
        let u := unzig zig
        if b u = 0 then
          if nz = 0 then .ok (zig, b, d)
          else refineNZF zigEnd delta fuel (zig + 1) (nz - 1) b d
        else
          match decodeBit d with
          | .error e => .error e
          | .ok (bit, d) =>
            if bit = false then refineNZF zigEnd delta fuel (zig + 1) nz b d
            else if b u ≥ 0 then
              refineNZF zigEnd delta fuel (zig + 1) nz
                (Function.update b u (b u + delta)) d
            else
              refineNZF zigEnd delta fuel (zig + 1) nz
                (Function.update b u (b u - delta)) d

/-- The AC refinement loop of `refine` (source lines 436-482) with
explicit fuel; returns the loop cursor at exit (needed by the pending
end-of-band step that follows the loop). -/
def refineLoopF (zigEnd : Nat) (delta : Int) : Nat → Nat → Block → DecState →
    Except JErr (Nat × Block × DecState)
  | fuel, zig, b, d =>
    if zig > zigEnd then .ok (zig, b, d)
    else
      match fuel with
      | 0 => .error .ioErr
      | fuel + 1 =>
        match decodeHuffman d with
        | .error e => .error e
        | .ok (value, d) =>
          let val0 := value / 16
          let val1 := value % 16
          if val1 = 0 then
            if val0 ≠ 15 then
              let eob := (1 <<< val0) % 65536
              match
                (if val0 ≠ 0 then
                  match decodeBits val0 d with
                  | .error e => .error e
                  | .ok (bv, d) => .ok (eob ||| bv % 65536, d)
                else .ok (eob, d) : Except JErr (Nat × DecState)) with
              | .error e => .error e
              | .ok (eob, d) => .ok (zig, b, { d with eobRun := eob })
            else
              match refineNZF zigEnd delta (zigEnd + 1 - zig) zig (15 : Int) b d with
              | .error e => .error e
              | .ok (zig, b, d) =>
                if zig > zigEnd then .error (.format "too many coefficients")
                else refineLoopF zigEnd delta fuel (zig + 1) b d
          else if val1 = 1 then
            match decodeBit d with
            | .error e => .error e
            | .ok (bit, d) =>
              let z : Int := if bit then delta else -delta
              match refineNZF zigEnd delta (zigEnd + 1 - zig) zig (val0 : Int) b d with
              | .error e => .error e
              | .ok (zig, b, d) =>
                if zig > zigEnd then .error (.format "too many coefficients")
                else
                  refineLoopF zigEnd delta fuel (zig + 1)
                    (if z ≠ 0 then Function.update b (unzig zig) z else b) d
          else .error (.format "unexpected Huffman code")

/-- `refine` (source lines 417-491): decode one successive approximation
refinement block, as specified in section G.1.2.  The source panics when
`zigStart = 0` and `zigEnd ≠ 0`; that unreachable branch is modelled as a
format error. -/
def refine (zigStart zigEnd : Nat) (delta : Int) (b : Block) (d : DecState) :
    Except JErr (Block × DecState) :=
  if zigStart = 0 then
    if zigEnd ≠ 0 then .error (.format "unreachable refine")
    else
      match decodeBit d with
      | .error e => .error e
      | .ok (bit, d) =>
        .ok ((if bit then Function.update b 0 (Int.lor (b 0) delta) else b), d)
  else
    match
      (if d.eobRun = 0 then refineLoopF zigEnd delta (zigEnd + 1 - zigStart) zigStart b d
       else .ok (zigStart, b, d) : Except JErr (Nat × Block × DecState)) with
    | .error e => .error e
    | .ok (zig, b, d) =>
      if d.eobRun > 0 then
        match refineNZF zigEnd delta (zigEnd + 1 - zig) zig (-1) b
            { d with eobRun := d.eobRun - 1 } with
        | .error e => .error e
        | .ok (_, b, d) => .ok (b, d)
      else .ok (b, d)

/-- One frame component as declared by the SOF marker: identifier `c`,
sampling factors `h` and `v`, quantization table selector `tq`. -/
structure Comp where
  c : Nat
  h : Nat
  v : Nat
  tq : Nat
  deriving DecidableEq, Repr

/-- The per-image decoder configuration: frame data supplied before scan
decoding begins, plus the external pure primitives `idct` (the inverse
DCT kernel) and `toRGB` (YCbCr to RGB conversion), both outside the
module under study. -/
structure Cfg where
  nComp : Nat
  comp : Nat → Comp
  width : Nat
  height : Nat
  ri : Nat
  progressive : Bool
  quant : Nat → Nat → Int
  idct : Block → Block
  toRGB : Nat → Nat → Nat → Nat × Nat × Nat

/-- `mxx`, the number of MCU columns (source line 152). -/
def Cfg.mxx (cfg : Cfg) : Nat :=
  (cfg.width + 8 * (cfg.comp 0).h - 1) / (8 * (cfg.comp 0).h)

/-- `myy`, the number of MCU rows (source line 153). -/
def Cfg.myy (cfg : Cfg) : Nat :=
  (cfg.height + 8 * (cfg.comp 0).v - 1) / (8 * (cfg.comp 0).v)

/-- The level shift and clip of `reconstructBlock` (source lines 566-573):
shift a centered sample by +128 and clip to a byte. -/
def levelShift (c : Int) : Nat :=
  if c < -128 then 0
  else if c > 127 then 255
  else (c + 128).toNat

/-- The dequantization loop of `reconstructBlock` (source lines 556-558):
multiply each zig-zag-ordered quantization value into the coefficient at
the corresponding natural-order position. -/
def dequantize (qt : Nat → Int) (b : Block) : Block :=
  (List.range blockSize).foldl
    (fun bb zig => Function.update bb (unzig zig) (bb (unzig zig) * qt zig)) b

/-- `reconstructBlock` (source lines 554-577): dequantize, apply the
inverse DCT, level shift and clip; it always returns a nil error. -/
def reconstructBlock (cfg : Cfg) (b : Block) (compIndex : Nat) :
    Except JErr (List Nat) :=
  let qt := cfg.quant (cfg.comp compIndex).tq
  let b := dequantize qt b
  let b := cfg.idct b
  .ok ((List.range blockSize).map (fun i => levelShift (b i)))

/-- The `compIndex := -1; for j ... if cs == comp.c` search of source
lines 78-83 (the last match wins). -/
def findCompIndex (cfg : Cfg) (cs : Nat) : Int :=
  (List.range cfg.nComp).foldl
    (fun acc j => if cs = (cfg.comp j).c then (j : Int) else acc) (-1)

/-- The scan component parsing loop of `processSOS` (source lines
76-109): resolve each component selector, reject unknown or repeated
selectors and out-of-range table selectors, and accumulate the total
`h*v` of the participating components. -/
def parseScanComps (cfg : Cfg) (tmp : List Nat) (baseline : Bool) :
    Nat → List ScanComp → Nat → Except JErr (List ScanComp × Nat)
  | 0, acc, totalHV => .ok (acc, totalHV)
  | i + 1, acc, totalHV =>
    let pos := acc.length
    let cs := tmp.getD (1 + 2 * pos) 0
    match findCompIndex cfg cs with
    | .negSucc _ => .error (.format "unknown component selector")
    | .ofNat compIndex =>
      if acc.any (fun s => s.compIndex = compIndex) then
        .error (.format "repeated component selector")
      else
        let totalHV := totalHV + (cfg.comp compIndex).h * (cfg.comp compIndex).v
        let td := tmp.getD (2 + 2 * pos) 0 / 16
        if td > maxTh ∨ (baseline ∧ td > 1) then .error (.format "bad Td value")
        else
          let ta := tmp.getD (2 + 2 * pos) 0 % 16
          if ta > maxTh ∨ (baseline ∧ ta > 1) then .error (.format "bad Ta value")
          else parseScanComps cfg tmp baseline i (acc ++ [⟨compIndex, td, ta⟩]) totalHV

/-- The spectral-selection / successive-approximation parsing of
`processSOS` (source lines 133-148): hard-coded to `0/63/0/0` for
sequential images, parsed and validated for progressive ones. -/
def parseProgParams (cfg : Cfg) (tmp : List Nat) (nComp : Nat) :
    Except JErr (Nat × Nat × Nat × Nat) :=
  if cfg.progressive then
    let zigStart := tmp.getD (1 + 2 * nComp) 0
    let zigEnd := tmp.getD (2 + 2 * nComp) 0
    let ah := tmp.getD (3 + 2 * nComp) 0 / 16
    let al := tmp.getD (3 + 2 * nComp) 0 % 16
    if (zigStart = 0 ∧ zigEnd ≠ 0) ∨ zigStart > zigEnd ∨ blockSize ≤ zigEnd then
      .error (.format "bad spectral selection bounds")
    else if zigStart ≠ 0 ∧ nComp ≠ 1 then
      .error (.format "progressive AC coefficients for more than one component")
    else if ah ≠ 0 ∧ ah ≠ al + 1 then
      .error (.format "bad successive approximation values")
    else .ok (zigStart, zigEnd, ah, al)
  else .ok (0, blockSize - 1, 0, 0)

/-- The scan header validation of `processSOS` (source lines 56-148):
length checks, the per-component parsing loop, the total sampling factor
check and the progressive parameter parsing, producing a `ScanCtx`.
`baseline` is the frame's baseline flag `d.baseline`. -/
def processSOSHeader (cfg : Cfg) (baseline : Bool) (n : Nat) (d : DecState) :
    Except JErr (ScanCtx × DecState) :=
  if cfg.nComp = 0 then .error (.format "missing SOF marker")
  else if n < 6 ∨ 4 + 2 * cfg.nComp < n ∨ n % 2 ≠ 0 then
    .error (.format "SOS has wrong length")
  else
    match readFull n d with
    | .error e => .error e
    | .ok (tmp, d) =>
      let nComp := tmp.getD 0 0
      if n ≠ 4 + 2 * nComp then
        .error (.format "SOS length inconsistent with number of components")
      else
        match parseScanComps cfg tmp baseline nComp [] 0 with
        | .error e => .error e
        | .ok (scomps, totalHV) =>
          if cfg.nComp > 1 ∧ totalHV > 10 then
            .error (.format "total sampling factors too large")
          else
            match parseProgParams cfg tmp nComp with
            | .error e => .error e
            | .ok (zigStart, zigEnd, ah, al) =>
              .ok (⟨scomps, zigStart, zigEnd, ah, al⟩, d)

/-- Observable events of a scan: a `visit` is the decoding of one block
at block coordinates `(bx, byi)` of a component, an `emit` is one
invocation of the external sink callback with the packed pixel block and
the arguments of source line 364. -/
inductive Ev where
  | visit (compIndex bx byi : Nat)
  | emit (pix : List Nat) (x y w h iw ih : Int)
  deriving DecidableEq, Repr

/-- The mutable loop state of `processSOS`: the decoder state plus the
local variables `blockCount`, `mcu` and `expectedRST`, and the event
trace. -/
@[ext]
structure LoopSt where
  d : DecState
  blockCount : Nat
  mcu : Nat
  expRST : Nat
  events : List Ev

/-- The `int16(...)` conversions applied to the callback arguments. -/
def int16 (x : Int) : Int := (x + 32768) % 65536 - 32768

/-- The luma quadrant fill of the tile cell buffer (source lines
315-323, the `case 0` branch). -/
def lumaFill (sbuf : Nat → Nat) (bx16 by16 : Nat) (dst : List Nat) : Nat → Nat :=
  (List.range 8).foldl
    (fun s cy =>
      (List.range 8).foldl
        (fun s cx =>
          Function.update s (((cy + by16) * 16 + (cx + bx16)) * 3 + 0)
            (dst.getD (cy * 8 + cx) 0)) s) sbuf

/-- The chroma fill with 2x2 pixel replication (source lines 324-351,
the `case 1`/`case 2` branches); `ch` selects the byte channel. -/
def chromaFill (ch : Nat) (sbuf : Nat → Nat) (bx16 by16 : Nat) (dst : List Nat) :
    Nat → Nat :=
  (List.range 8).foldl
    (fun s cy =>
      (List.range 8).foldl
        (fun s cx =>
          let v := dst.getD (cy * 8 + cx) 0
          let s := Function.update s
            (((cy * 2 + 0 + by16) * 16 + (cx * 2 + 0 + bx16)) * 3 + ch) v
          let s := Function.update s
            (((cy * 2 + 0 + by16) * 16 + (cx * 2 + 1 + bx16)) * 3 + ch) v
          let s := Function.update s
            (((cy * 2 + 1 + by16) * 16 + (cx * 2 + 0 + bx16)) * 3 + ch) v
          Function.update s
            (((cy * 2 + 1 + by16) * 16 + (cx * 2 + 1 + bx16)) * 3 + ch) v) s) sbuf

/-- The 16-bit 5-6-5 packing of one converted pixel (source lines
358-361). -/
def pack565 (cfg : Cfg) (yy cb cr : Nat) : Nat :=
  let rgb := cfg.toRGB (yy % 256) (cb % 256) (cr % 256)
  let r := rgb.1 % 256
  let g := rgb.2.1 % 256
  let b := rgb.2.2 % 256
  ((r <<< 8) &&& 0xF800) + (((g <<< 8) &&& 0xFC00) >>> 5) +
    (((b <<< 8) &&& 0xF800) >>> 11)

/-- The color conversion loop (source lines 353-363): convert all 256
cell pixels from the tile buffer into packed 16-bit values. -/
def emitPixels (cfg : Cfg) (s : Nat → Nat) : List Nat :=
  (List.range 256).map
    (fun k => pack565 cfg (s (k * 3 + 0)) (s (k * 3 + 1)) (s (k * 3 + 2)))

/-- The decoding of one visited block at coordinates `(bx, byi)` (source
lines 225-366): load the previous coefficients (progressive) or a zero
block (baseline), decode or refine, then either save the coefficients
(progressive) or reconstruct the block and assemble it into the tile
cell, emitting the callback once the Cr block of a cell is placed. -/
def decodeAt (cfg : Cfg) (sc : ScanCtx) (compIndex hi bx byi : Nat) (ls : LoopSt) :
    Except JErr LoopSt :=
  let d := ls.d
  let b : Block :=
    if cfg.progressive then d.store (compIndex, byi * cfg.mxx * hi + bx)
    else zeroBlock
  let ev := ls.events ++ [.visit compIndex bx byi]
  match
    (if sc.ah ≠ 0 then refine sc.zigStart sc.zigEnd (2 ^ sc.al) b d
     else firstPassBlock sc compIndex b d) with
  | .error e => .error e
  | .ok (b, d) =>
    if cfg.progressive then
      .ok { ls with
            events := ev
            d := { d with store :=
                    Function.update d.store (compIndex, byi * cfg.mxx * hi + bx) b } }
    else
      match reconstructBlock cfg b compIndex with
      | .error e => .error e
      | .ok dst =>
        if compIndex = 0 then
          .ok { ls with
                events := ev
                d := { d with sbuf := lumaFill d.sbuf (bx * 8 % 16) (byi * 8 % 16) dst } }
        else if compIndex = 1 then
          .ok { ls with
                events := ev
                d := { d with sbuf :=
                        chromaFill 1 d.sbuf (bx * 8 * 2 % 16) (byi * 8 * 2 % 16) dst } }
        else if compIndex = 2 then
          let s2 := chromaFill 2 d.sbuf (bx * 8 * 2 % 16) (byi * 8 * 2 % 16) dst
          .ok { ls with
                events := ev ++
                  [.emit (emitPixels cfg s2)
                    (int16 ((bx * 8 * 2 - bx * 8 * 2 % 16 : Nat) : Int))
                    (int16 ((byi * 8 * 2 - byi * 8 * 2 % 16 : Nat) : Int))
                    16 16 (int16 (cfg.width : Int)) (int16 (cfg.height : Int))]
                d := { d with sbuf := s2 } }
        else .ok { ls with events := ev, d := d }

/-- The inner loop body of `processSOS` for the `j`-th block of one scan
component (source lines 186-223): interleaved scans place the block
inside the MCU's sub-grid; non-interleaved scans traverse the
component's own block grid in raster order and skip blocks outside the
image's pixel bounds without touching the bitstream. -/
def blockStep (cfg : Cfg) (sc : ScanCtx) (scomp : ScanComp) (mx my j : Nat)
    (ls : LoopSt) : Except JErr LoopSt :=
  let compIndex := scomp.compIndex
  let hi := (cfg.comp compIndex).h
  let vi := (cfg.comp compIndex).v
  if sc.comps.length ≠ 1 then
    decodeAt cfg sc compIndex hi (hi * mx + j % hi) (vi * my + j / hi) ls
  else
    let q := cfg.mxx * hi
    let bx := ls.blockCount % q
    let byi := ls.blockCount / q
    let ls := { ls with blockCount := ls.blockCount + 1 }
    if bx * 8 ≥ cfg.width ∨ byi * 8 ≥ cfg.height then .ok ls
    else decodeAt cfg sc compIndex hi bx byi ls

/-- Error-propagating left fold, the shape of every loop in
`processSOS`. -/
def foldE (f : α → LoopSt → Except JErr LoopSt) : List α → LoopSt →
    Except JErr LoopSt
  | [], ls => .ok ls
  | a :: l, ls =>
    match f a ls with
    | .error e => .error e
    | .ok ls => foldE f l ls

/-- The `for j` loop over the `hi*vi` blocks of one scan component
(source line 186). -/
def compStep (cfg : Cfg) (sc : ScanCtx) (mx my : Nat) (scomp : ScanComp)
    (ls : LoopSt) : Except JErr LoopSt :=
  foldE (fun j ls => blockStep cfg sc scomp mx my j ls)
    (List.range ((cfg.comp scomp.compIndex).h * (cfg.comp scomp.compIndex).v)) ls

/-- The restart marker handling after each MCU (source lines 370-408):
after every `ri`-th MCU that is not the last one, read a 2-byte marker,
tolerating one spurious `0xff 0x00` pair, require `0xff` followed by the
expected RST marker, then reset the bit reader, the DC predictors and
the end-of-band run, and advance the expected marker cyclically. -/
def restartCheck (cfg : Cfg) (ls : LoopSt) : Except JErr LoopSt :=
  if cfg.ri > 0 ∧ ls.mcu % cfg.ri = 0 ∧ ls.mcu < cfg.mxx * cfg.myy then
    match readFull 2 ls.d with
    | .error e => .error e
    | .ok (tmp, d) =>
      match
        (if tmp.getD 0 0 = 0xff ∧ tmp.getD 1 0 = 0x00 then readFull 2 d
         else .ok (tmp, d) : Except JErr (List Nat × DecState)) with
      | .error e => .error e
      | .ok (tmp, d) =>
        if tmp.getD 0 0 ≠ 0xff ∨ tmp.getD 1 0 ≠ ls.expRST then
          .error (.format "bad RST marker")
        else
          let e1 := ls.expRST + 1
          .ok { ls with
                expRST := if e1 = rst7Marker + 1 then rst0Marker else e1
                d := { d with bitsA := 0, dc := fun _ => 0, eobRun := 0 } }
  else .ok ls

/-- The body of the `for mx` loop (source lines 182-408): all scan
components of one MCU, then the MCU counter increment and the restart
marker check. -/
def mcuStep (cfg : Cfg) (sc : ScanCtx) (my mx : Nat) (ls : LoopSt) :
    Except JErr LoopSt :=
  match foldE (fun scomp ls => compStep cfg sc mx my scomp ls) sc.comps ls with
  | .error e => .error e
  | .ok ls => restartCheck cfg { ls with mcu := ls.mcu + 1 }

/-- The `for mx` loop over one MCU row. -/
def rowStep (cfg : Cfg) (sc : ScanCtx) (my : Nat) (ls : LoopSt) :
    Except JErr LoopSt :=
  foldE (fun mx ls => mcuStep cfg sc my mx ls) (List.range cfg.mxx) ls

/-- The decode loop of `processSOS` (source lines 180-410), starting
from the freshly initialized local state of lines 170-179. -/
def scanLoop (cfg : Cfg) (sc : ScanCtx) (d : DecState) : Except JErr LoopSt :=
  foldE (fun my ls => rowStep cfg sc my ls) (List.range cfg.myy)
    ⟨d, 0, 0, rst0Marker, []⟩

/-- The state reset at the start of the scan loop: `d.bits = bits{}`
(source line 169) and the fresh all-zero DC predictor array `dc` of line
174.  The end-of-band run counter is not touched. -/
def scanSetup (d : DecState) : DecState := { d with bitsA := 0, dc := fun _ => 0 }

/-- `processSOS` (source lines 56-413): validate the scan header, reset
the per-scan state, and run the decode loop.  (The image allocation of
`makeImg` and the lazy, zero-filled allocation of `d.progCoeffs` are
no-ops in this model: the store is total and defaults are zero blocks.) -/
def processSOS (cfg : Cfg) (baseline : Bool) (n : Nat) (d : DecState) :
    Except JErr LoopSt :=
  match processSOSHeader cfg baseline n d with
  | .error e => .error e
  | .ok (sc, d) => scanLoop cfg sc (scanSetup d)

/-- Projection of a trace onto the visited block coordinates. -/
def visits : List Ev → List (Nat × Nat × Nat)
  | [] => []
  | .visit c x y :: l => (c, x, y) :: visits l
  | .emit .. :: l => visits l

/-- Iterated first-pass block decoding over a list of (component index,
input block) pairs: the per-scan sequence of visited blocks as driven by
the traversal engine. -/
def runFP (sc : ScanCtx) : List (Nat × Block) → DecState →
    Except JErr (List Block × DecState)
  | [], d => .ok ([], d)
  | (ci, b) :: l, d =>
    match firstPassBlock sc ci b d with
    | .error e => .error e
    | .ok (b, d) =>
      match runFP sc l d with
      | .error e => .error e
      | .ok (bs, d) => .ok (b :: bs, d)

/-- Extract the value of a successful computation, with a fallback. -/
def okOr (x : Except JErr α) (dflt : α) : α :=
  match x with
  | .ok v => v
  | .error _ => dflt

/-- The level shift and clip in the words of the spec: values at most
-128 clamp to 0, values at least 128 clamp to 255, others add 128.  (To
be compared with the source's `levelShift`.) -/
def clipSpec (c : Int) : Nat :=
  if c ≤ -128 then 0
  else if 128 ≤ c then 255
  else (c + 128).toNat

/-! ### General-purpose lemmas -/

theorem two_pow_lor_eq_add (r : Nat) : ∀ a : Nat, a < 2 ^ r → 2 ^ r ||| a = 2 ^ r + a := by
  induction r with
  | zero =>
    intro a ha
    interval_cases a
    decide
  | succ r ih =>
    intro a ha
    have hq : a / 2 < 2 ^ r := by
      have := Nat.pow_succ 2 r
      omega
    have hbit : a % 2 = 0 ∨ a % 2 = 1 := Nat.mod_two_eq_zero_or_one a
    have h2 : 2 ^ (r + 1) = Nat.bit false (2 ^ r) := by
      simp [Nat.bit, Nat.pow_succ]
      ring
    have ha2 : a = Nat.bit (decide (a % 2 = 1)) (a / 2) := by
      rcases hbit with h | h <;> simp [Nat.bit, h] <;> omega
    rw [h2, ha2, Nat.lor_bit, ih _ hq]
    rcases hbit with h | h <;> simp [Nat.bit, h, Nat.pow_succ] <;> omega

theorem levelShift_eq_clipSpec (c : Int) : levelShift c = clipSpec c := by
  unfold levelShift clipSpec
  split_ifs <;> omega

theorem unzig_map_range : (List.range blockSize).map unzig = unzigTable := by
  decide

theorem unzig_nodup : ((List.range blockSize).map unzig).Nodup := by
  decide

theorem unzig_zero : unzig 0 = 0 := by decide

theorem unzig_pos {z : Nat} (h1 : 1 ≤ z) (h2 : z < blockSize) : unzig z ≠ 0 := by
  unfold blockSize at h2
  interval_cases z <;> decide

theorem int16_eq_self {x : Int} (h0 : 0 ≤ x) (h : x < 32768) : int16 x = x := by
  unfold int16
  omega

/-! ### Dequantization -/

theorem dequantize_core_untouched (qt : Nat → Int) :
    ∀ (l : List Nat) (b : Block) (u : Nat), u ∉ l.map unzig →
      (l.foldl (fun bb zig => Function.update bb (unzig zig) (bb (unzig zig) * qt zig)) b) u
        = b u := by
  intro l
  induction l with
  | nil => intro b u _; rfl
  | cons a t ih =>
    intro b u hu
    simp only [List.map_cons, List.mem_cons, not_or] at hu
    simp only [List.foldl_cons]
    rw [ih _ _ hu.2, Function.update_apply, if_neg hu.1]

theorem dequantize_core_value (qt : Nat → Int) :
    ∀ (l : List Nat) (b : Block), (l.map unzig).Nodup →
      ∀ z ∈ l,
        (l.foldl (fun bb zig => Function.update bb (unzig zig) (bb (unzig zig) * qt zig)) b)
          (unzig z) = b (unzig z) * qt z := by
  intro l
  induction l with
  | nil => intro b _ z hz; exact absurd hz (List.not_mem_nil z)
  | cons a t ih =>
    intro b hnd z hz
    simp only [List.map_cons, List.nodup_cons] at hnd
    simp only [List.foldl_cons]
    rcases List.mem_cons.mp hz with rfl | hzt
    · rw [dequantize_core_untouched qt t _ _ hnd.1]
      rw [Function.update_apply, if_pos rfl]
    · have hne : unzig z ≠ unzig a := by
        intro hEq
        exact hnd.1 (hEq ▸ List.mem_map_of_mem unzig hzt)
      rw [ih _ hnd.2 z hzt, Function.update_apply, if_neg hne]

theorem dequantize_value (qt : Nat → Int) (b : Block) {z : Nat} (hz : z < blockSize) :
    dequantize qt b (unzig z) = b (unzig z) * qt z :=
  dequantize_core_value qt (List.range blockSize) b unzig_nodup z
    (List.mem_range.mpr hz)

/-! ### C7: block reconstruction -/

/-- C7.  Block reconstruction multiplies, for every zig-zag index `z` in
`0..63`, the `z`-th quantization-table value into the coefficient at the
natural-order position `unzig z`, applies the inverse DCT, and maps each
of the 64 resulting values `c` to a byte which is 0 when `c ≤ -128`, 255
when `c ≥ 128`, and `c + 128` otherwise; it always returns a nil
error. -/
theorem reconstructBlock_spec (cfg : Cfg) (b : Block) (compIndex : Nat) :
    ∃ dq : Block,
      (∀ z, z < blockSize →
        dq (unzig z) = b (unzig z) * cfg.quant (cfg.comp compIndex).tq z) ∧
      reconstructBlock cfg b compIndex =
        .ok ((List.range blockSize).map (fun i => clipSpec (cfg.idct dq i))) := by
  refine ⟨dequantize (cfg.quant (cfg.comp compIndex).tq) b, ?_, ?_⟩
  · intro z hz
    exact dequantize_value _ b hz
  · simp only [reconstructBlock]
    congr 1
    apply List.map_congr_left
    intro i _
    exact levelShift_eq_clipSpec _

/-! ### Scan header validation: C8 and C9 -/

theorem parseScanComps_length (cfg : Cfg) (tmp : List Nat) (baseline : Bool) :
    ∀ (i : Nat) (acc : List ScanComp) (hv : Nat) (scomps : List ScanComp) (thv : Nat),
      parseScanComps cfg tmp baseline i acc hv = .ok (scomps, thv) →
      scomps.length = acc.length + i := by
  intro i
  induction i with
  | zero =>
    intro acc hv scomps thv h
    simp only [parseScanComps] at h
    cases h
    simp
  | succ i ih =>
    intro acc hv scomps thv h
    simp only [parseScanComps] at h
    split at h
    · exact absurd h (by simp)
    · split at h
      · exact absurd h (by simp)
      · split at h
        · exact absurd h (by simp)
        · split at h
          · exact absurd h (by simp)
          · have := ih _ _ _ _ h
            simp at this
            omega

theorem parseProgParams_ne_totalHV (cfg : Cfg) (tmp : List Nat) (nComp : Nat) :
    parseProgParams cfg tmp nComp ≠ .error (.format "total sampling factors too large") := by
  intro h
  unfold parseProgParams at h
  dsimp only at h
  split at h
  · split at h
    · exact absurd h (by simp)
    · split at h
      · exact absurd h (by simp)
      · split at h
        · exact absurd h (by simp)
        · exact absurd h (by simp)
  · exact absurd h (by simp)

/-- C8, amended.  The scan header validator requires the SOS payload
length to be exactly `4 + 2 * componentCount` for baseline and
progressive images alike (the three spectral-selection bytes are within
that count); a successful parse pins the length, and any length that
differs from `4 + 2 * (first payload byte)` is rejected with a
`FormatError` (provided the payload itself can be read). -/
theorem processSOSHeader_length (cfg : Cfg) (baseline : Bool) (n : Nat) (d : DecState) :
    (∀ sc d', processSOSHeader cfg baseline n d = .ok (sc, d') →
      n = 4 + 2 * sc.comps.length) ∧
    (n ≤ d.byteS.length →
      n ≠ 4 + 2 * ((d.byteS.take n).map (· % 256)).getD 0 0 →
      ∃ msg, processSOSHeader cfg baseline n d = .error (.format msg)) := by
  constructor
  · intro sc d' h
    unfold processSOSHeader at h
    split at h
    · exact absurd h (by simp)
    · split at h
      · exact absurd h (by simp)
      · unfold readFull at h
        split at h
        · exact absurd h (by simp)
        · simp only at h
          split at h
          · exact absurd h (by simp)
          · rename_i hn
            split at h
            · exact absurd h (by simp)
            · rename_i sres scomps thv hps
              split at h
              · exact absurd h (by simp)
              · split at h
                · exact absurd h (by simp)
                · rename_i pres zs ze ah al hpp
                  cases h
                  have hlen := parseScanComps_length cfg _ baseline _ _ _ _ _ hps
                  simp only [List.length_nil, Nat.zero_add] at hlen
                  show n = 4 + 2 * scomps.length
                  omega
  · intro hlen hne
    unfold processSOSHeader
    split
    · exact ⟨_, rfl⟩
    · split
      · exact ⟨_, rfl⟩
      · unfold readFull
        rw [if_neg (by omega)]
        simp only
        rw [if_pos hne]
        exact ⟨_, rfl⟩

/-- The frame configuration of the C8 counterexample: a progressive
image with a single declared component. -/
def cfgC8 : Cfg where
  nComp := 1
  comp := fun _ => ⟨1, 1, 1, 0⟩
  width := 8
  height := 8
  ri := 0
  progressive := true
  quant := fun _ _ => 1
  idct := id
  toRGB := fun y _ _ => (y, y, y)

/-- A decoder state whose byte oracle holds a 9-byte SOS payload. -/
def dC8a : DecState :=
  ⟨[], [], [], [], [1, 1, 0, 0, 0, 0, 0, 0, 0], 0, 0, fun _ => 0, fun _ => zeroBlock,
    fun _ => 0⟩

/-- A decoder state whose byte oracle holds a 6-byte SOS payload. -/
def dC8b : DecState :=
  ⟨[], [], [], [], [1, 1, 0, 0, 0, 0], 0, 0, fun _ => 0, fun _ => zeroBlock,
    fun _ => 0⟩

/-- C8, counterexample.  For a progressive image with one scan component
the claim demands a payload length of exactly `7 + 2 * 1 = 9`; the code
rejects the 9-byte payload with `FormatError` and accepts the 6-byte
(`4 + 2 * 1`) payload carrying the same scan. -/
theorem processSOSHeader_progressive_length_cex :
    processSOSHeader cfgC8 false 9 dC8a = .error (.format "SOS has wrong length") ∧
    ∃ out, processSOSHeader cfgC8 false 6 dC8b = .ok out := by
  constructor
  · rfl
  · exact ⟨okOr (processSOSHeader cfgC8 false 6 dC8b) ⟨⟨[], 0, 0, 0, 0⟩, dC8b⟩, rfl⟩

/-- C9, amended.  Once the length checks and the component parsing loop
succeed, the scan is rejected with the "total sampling factors too
large" `FormatError` exactly when the frame declares more than one
component and the total `h*v` over the scan's participating components
exceeds 10; in particular the check keys on the frame's component count
`d.nComp`, not on the number of components participating in the scan. -/
theorem processSOSHeader_totalHV (cfg : Cfg) (baseline : Bool) (n : Nat)
    (d : DecState) (tmp : List Nat) (d1 : DecState) (scomps : List ScanComp)
    (thv : Nat)
    (h0 : cfg.nComp ≠ 0)
    (h1 : ¬(n < 6 ∨ 4 + 2 * cfg.nComp < n ∨ n % 2 ≠ 0))
    (h2 : readFull n d = .ok (tmp, d1))
    (h3 : n = 4 + 2 * tmp.getD 0 0)
    (h4 : parseScanComps cfg tmp baseline (tmp.getD 0 0) [] 0 = .ok (scomps, thv)) :
    processSOSHeader cfg baseline n d =
        .error (.format "total sampling factors too large") ↔
      cfg.nComp > 1 ∧ thv > 10 := by
  unfold processSOSHeader
  rw [if_neg h0, if_neg h1, h2]
  simp only
  rw [if_neg (by omega), h4]
  simp only
  by_cases hc : cfg.nComp > 1 ∧ thv > 10
  · rw [if_pos hc]
    simp [hc]
  · rw [if_neg hc]
    constructor
    · intro h
      split at h
      · rename_i e hres
        injection h with he
        exact absurd (he ▸ hres) (parseProgParams_ne_totalHV cfg tmp _)
      · exact absurd h (by simp)
    · intro h
      exact absurd h hc

/-- The frame configuration of the C9 counterexample: two declared frame
components, the first with sampling factors `4x4`. -/
def cfgC9 : Cfg where
  nComp := 2
  comp := fun j => if j = 0 then ⟨1, 4, 4, 0⟩ else ⟨2, 1, 1, 0⟩
  width := 32
  height := 32
  ri := 0
  progressive := false
  quant := fun _ _ => 1
  idct := id
  toRGB := fun y _ _ => (y, y, y)

/-- A decoder state whose byte oracle holds a 6-byte SOS payload
selecting only the first component. -/
def dC9 : DecState :=
  ⟨[], [], [], [], [1, 1, 0, 0, 63, 0], 0, 0, fun _ => 0, fun _ => zeroBlock,
    fun _ => 0⟩

/-- C9, counterexample.  A scan in which exactly one component
participates (with `h*v = 16 > 10`, on a two-component frame) is
rejected with the "total sampling factors too large" `FormatError`,
although the claim says a single-component scan is never rejected on
account of this sum. -/
theorem processSOSHeader_totalHV_cex :
    processSOSHeader cfgC9 false 6 dC9 =
      .error (.format "total sampling factors too large") := by
  rfl

/-- C8 witness: the amended length rule evaluated on the concrete
progressive configuration. -/
theorem processSOSHeader_length_witness :
    6 = 4 + 2 * (okOr (processSOSHeader cfgC8 false 6 dC8b)
        ⟨⟨[], 0, 0, 0, 0⟩, dC8b⟩).1.comps.length ∧
    ∃ msg, processSOSHeader cfgC8 false 9 dC8a = .error (.format msg) := by
  constructor
  · exact (processSOSHeader_length cfgC8 false 6 dC8b).1 _ _ rfl
  · exact (processSOSHeader_length cfgC8 false 9 dC8a).2 (by decide) (by decide)

/-- C9 witness: the amended total-sampling-factor rule evaluated on the
concrete two-component configuration. -/
theorem processSOSHeader_totalHV_witness :
    processSOSHeader cfgC9 false 6 dC9 =
        .error (.format "total sampling factors too large") ↔
      cfgC9.nComp > 1 ∧ 16 > 10 :=
  processSOSHeader_totalHV cfgC9 false 6 dC9 [1, 1, 0, 0, 63, 0]
    ⟨[], [], [], [], [], 0, 0, fun _ => 0, fun _ => zeroBlock, fun _ => 0⟩
    [⟨0, 0, 0⟩] 16 (by decide) (by decide) rfl (by decide) rfl

/-! ### C6: first-pass DC decoding -/

/-- C6.  In a first-pass scan with `zigStart = 0` the decoder decodes
one DC Huffman symbol per block; a size category above 16 is an
`UnsupportedError`, and otherwise the sign-extended value from
`receiveExtend` is added to the per-component DC predictor and
`predictor * 2^al` is stored at coefficient position 0 before the AC
phase runs on the updated state. -/
theorem firstPass_dc (sc : ScanCtx) (compIndex : Nat) (b : Block) (d : DecState)
    (hzs : sc.zigStart = 0) :
    (∀ v hr, d.huffS = v :: hr → v % 256 > 16 →
      firstPassBlock sc compIndex b d = .error (.unsupported "excessive DC component")) ∧
    (∀ v hr e er, d.huffS = v :: hr → v % 256 ≤ 16 → d.extS = e :: er →
      firstPassBlock sc compIndex b d =
        acPhase sc.zigEnd sc.al 1
          (Function.update b 0 ((d.dc compIndex + e) * 2 ^ sc.al))
          { d with huffS := hr, extS := er,
                   dc := Function.update d.dc compIndex (d.dc compIndex + e) }) := by
  constructor
  · intro v hr hh hv
    unfold firstPassBlock
    rw [if_pos hzs]
    unfold decodeHuffman
    rw [hh]
    simp only
    rw [if_pos hv]
  · intro v hr e er hh hv he
    unfold firstPassBlock
    rw [if_pos hzs]
    unfold decodeHuffman
    rw [hh]
    simp only
    rw [if_neg (by omega)]
    unfold receiveExtend
    rw [he]

/-! ### C1: end-of-band runs -/

theorem one_shiftLeft_eq_pow (r : Nat) : (1 <<< r) = 2 ^ r := by
  rw [Nat.shiftLeft_eq, Nat.one_mul]

/-- C1.  First-pass end-of-band handling: a Huffman symbol `16*r` with
`r ≠ 15` read during AC decoding sets the run counter to `2^r` plus
(when `r > 0`) `r` extra bits from the stream, immediately decrements it
and stops scanning the block (the block and all oracle streams past the
consumed symbols are untouched); every subsequent block decoded while
the counter is nonzero decodes nothing, leaves its coefficients
untouched, decrements the counter by exactly one and succeeds, so a run
of total value `n` suppresses AC decoding in exactly the next `n - 1`
blocks; when the counter is zero the AC decoding loop runs instead. -/
theorem eobRun_spec :
    (∀ zigEnd al fuel zig b (d : DecState) hr, d.huffS = 0 :: hr → zig ≤ zigEnd →
      acLoopF zigEnd al (fuel + 1) zig b d = .ok (b, { d with huffS := hr, eobRun := 0 })) ∧
    (∀ zigEnd al fuel zig b (d : DecState) r hr bv br,
      d.huffS = (16 * r) :: hr → 0 < r → r < 15 → d.bitsS = bv :: br → zig ≤ zigEnd →
      acLoopF zigEnd al (fuel + 1) zig b d =
        .ok (b, { d with huffS := hr, bitsS := br,
                         eobRun := 2 ^ r + bv % 2 ^ r - 1 })) ∧
    (∀ (sc : ScanCtx), 1 ≤ sc.zigStart → sc.zigStart ≤ sc.zigEnd →
      ∀ (l : List (Nat × Block)) (d : DecState), l.length ≤ d.eobRun →
        runFP sc l d = .ok (l.map Prod.snd, { d with eobRun := d.eobRun - l.length })) ∧
    (∀ (sc : ScanCtx) compIndex b (d : DecState) v hr e er,
      sc.zigStart = 0 → 1 ≤ sc.zigEnd → 0 < d.eobRun →
      d.huffS = v :: hr → v % 256 ≤ 16 → d.extS = e :: er →
      firstPassBlock sc compIndex b d =
        .ok (Function.update b 0 ((d.dc compIndex + e) * 2 ^ sc.al),
          { d with huffS := hr, extS := er,
                   dc := Function.update d.dc compIndex (d.dc compIndex + e),
                   eobRun := d.eobRun - 1 })) ∧
    (∀ (sc : ScanCtx) compIndex b (d : DecState), 1 ≤ sc.zigStart → d.eobRun = 0 →
      firstPassBlock sc compIndex b d =
        acLoopF sc.zigEnd sc.al (sc.zigEnd + 1 - sc.zigStart) sc.zigStart b d) := by
  refine ⟨?_, ?_, ?_, ?_, ?_⟩
  · intro zigEnd al fuel zig b d hr hh hle
    unfold acLoopF
    rw [if_neg (by omega)]
    unfold decodeHuffman
    rw [hh]
    simp
  · intro zigEnd al fuel zig b d r hr bv br hh hr0 hr15 hb hle
    unfold acLoopF
    rw [if_neg (by omega)]
    unfold decodeHuffman
    rw [hh]
    have h256 : 16 * r % 256 = 16 * r := Nat.mod_eq_of_lt (by omega)
    have hdiv : 16 * r / 16 = r := by omega
    have hmod : 16 * r % 16 = 0 := Nat.mul_mod_right 16 r
    simp only [h256, hdiv, hmod]
    rw [if_neg (by simp), if_pos (by omega), if_pos (by omega)]
    unfold decodeBits
    rw [hb]
    simp only
    have hpow : 2 ^ r < 32768 := by
      calc 2 ^ r ≤ 2 ^ 14 := Nat.pow_le_pow_right (by omega) (by omega)
      _ < 32768 := by omega
    have hsh : (1 <<< r) % 65536 = 2 ^ r := by
      rw [one_shiftLeft_eq_pow]
      exact Nat.mod_eq_of_lt (by omega)
    have hbv : bv % 2 ^ r % 65536 = bv % 2 ^ r := by
      have : bv % 2 ^ r < 2 ^ r := Nat.mod_lt bv (Nat.pos_pow_of_pos r (by omega))
      exact Nat.mod_eq_of_lt (by omega)
    rw [hsh, hbv, two_pow_lor_eq_add r _ (Nat.mod_lt bv (Nat.pos_pow_of_pos r (by omega)))]
  · intro sc hz1 hzle l
    induction l with
    | nil =>
      intro d hlen
      simp only [runFP, List.map_nil, List.length_nil, Nat.sub_zero]
    | cons p l ih =>
      intro d hlen
      obtain ⟨ci, b⟩ := p
      have hlen' : l.length + 1 ≤ d.eobRun := by simpa using hlen
      simp only [runFP]
      unfold firstPassBlock
      rw [if_neg (by omega)]
      unfold acPhase
      rw [if_pos ⟨hzle, by omega⟩]
      simp only
      rw [ih { d with eobRun := d.eobRun - 1 } (by simp; omega)]
      simp only [List.map_cons, List.length_cons]
      have : d.eobRun - 1 - l.length = d.eobRun - (l.length + 1) := by omega
      rw [this]
  · intro sc compIndex b d v hr e er hzs hze he0 hh hv hext
    rw [(firstPass_dc sc compIndex b d hzs).2 v hr e er hh hv hext]
    unfold acPhase
    rw [if_pos ⟨hze, he0⟩]
  · intro sc compIndex b d hz1 he0
    unfold firstPassBlock
    rw [if_neg (by omega)]
    unfold acPhase
    rw [if_neg (by omega)]

/-- A state whose Huffman oracle holds the end-of-band symbol `0`. -/
def dW1 : DecState :=
  ⟨[0], [], [], [], [], 0, 0, fun _ => 0, fun _ => zeroBlock, fun _ => 0⟩

/-- A state whose Huffman oracle holds the end-of-band symbol `32`
(run nibble 2) and whose extra-bits oracle holds `3`. -/
def dW2 : DecState :=
  ⟨[32], [], [3], [], [], 0, 0, fun _ => 0, fun _ => zeroBlock, fun _ => 0⟩

/-- A state with a pending end-of-band run of 5. -/
def dW3 : DecState :=
  ⟨[], [], [], [], [], 0, 5, fun _ => 0, fun _ => zeroBlock, fun _ => 0⟩

/-- A state with a pending end-of-band run of 2 and a DC symbol/value. -/
def dW4 : DecState :=
  ⟨[5], [], [], [7], [], 0, 2, fun _ => 0, fun _ => zeroBlock, fun _ => 0⟩

/-- A state whose Huffman oracle holds the oversized DC size 17. -/
def dW5 : DecState :=
  ⟨[17], [], [], [], [], 0, 0, fun _ => 0, fun _ => zeroBlock, fun _ => 0⟩

/-- A single-component AC scan descriptor (`zigStart = 1`). -/
def scW : ScanCtx := ⟨[⟨0, 0, 0⟩], 1, 63, 0, 0⟩

/-- A single-component full scan descriptor (`zigStart = 0`). -/
def scW0 : ScanCtx := ⟨[⟨0, 0, 0⟩], 0, 63, 0, 0⟩

/-- C1 witness: the end-of-band behaviour evaluated on concrete streams
and a concrete two-block suppression run. -/
theorem eobRun_spec_witness :
    acLoopF 63 0 63 1 zeroBlock dW1 = .ok (zeroBlock, { dW1 with huffS := [], eobRun := 0 }) ∧
    acLoopF 63 0 63 1 zeroBlock dW2 =
      .ok (zeroBlock,
        { dW2 with
            huffS := []
            bitsS := []
            eobRun := 2 ^ 2 + 3 % 2 ^ 2 - 1 }) ∧
    runFP scW [(0, zeroBlock), (0, zeroBlock)] dW3 =
      .ok ([zeroBlock, zeroBlock], { dW3 with eobRun := 5 - 2 }) ∧
    firstPassBlock scW0 0 zeroBlock dW4 =
      .ok (Function.update zeroBlock 0 ((dW4.dc 0 + 7) * 2 ^ 0),
        { dW4 with
            huffS := []
            extS := []
            dc := Function.update dW4.dc 0 (dW4.dc 0 + 7)
            eobRun := 2 - 1 }) ∧
    firstPassBlock scW 0 zeroBlock dW1 = acLoopF 63 0 (63 + 1 - 1) 1 zeroBlock dW1 := by
  refine ⟨?_, ?_, ?_, ?_, ?_⟩
  · exact eobRun_spec.1 63 0 62 1 zeroBlock dW1 [] rfl (by omega)
  · exact eobRun_spec.2.1 63 0 62 1 zeroBlock dW2 2 [] 3 [] rfl (by omega) (by omega) rfl
      (by omega)
  · exact eobRun_spec.2.2.1 scW (by decide) (by decide) [(0, zeroBlock), (0, zeroBlock)]
      dW3 (by decide)
  · exact eobRun_spec.2.2.2.1 scW0 0 zeroBlock dW4 5 [] 7 [] rfl (by decide) (by decide)
      rfl (by decide) rfl
  · exact eobRun_spec.2.2.2.2 scW 0 zeroBlock dW1 (by decide) rfl

/-- C6 witness: the DC decoding rule evaluated on concrete streams. -/
theorem firstPass_dc_witness :
    firstPassBlock scW0 0 zeroBlock dW5 = .error (.unsupported "excessive DC component") ∧
    firstPassBlock scW0 0 zeroBlock dW4 =
      acPhase scW0.zigEnd scW0.al 1
        (Function.update zeroBlock 0 ((dW4.dc 0 + 7) * 2 ^ scW0.al))
        { dW4 with
            huffS := []
            extS := []
            dc := Function.update dW4.dc 0 (dW4.dc 0 + 7) } := by
  constructor
  · exact (firstPass_dc scW0 0 zeroBlock dW5 rfl).1 17 [] rfl (by decide)
  · exact (firstPass_dc scW0 0 zeroBlock dW4 rfl).2 5 [] 7 [] rfl (by decide) rfl

/-! ### C3: restart markers -/

/-- C3.  After every `ri`-th MCU that is not the last one the decoder
reads two bytes; a `0xff 0x00` pair is tolerated once by re-reading two
more bytes; the (possibly re-read) pair must be `0xff` followed by the
expected restart marker, which advances cyclically from `RST0` through
`RST7` and wraps; a mismatch is a `FormatError`; on success the bit
reader, every DC predictor and the end-of-band run counter are all reset
to zero, so each restart-delimited MCU group starts with zero DC
predictors.  Outside the trigger condition the check does nothing. -/
theorem restart_spec (cfg : Cfg) (ls : LoopSt) :
    (¬(cfg.ri > 0 ∧ ls.mcu % cfg.ri = 0 ∧ ls.mcu < cfg.mxx * cfg.myy) →
      restartCheck cfg ls = .ok ls) ∧
    ((cfg.ri > 0 ∧ ls.mcu % cfg.ri = 0 ∧ ls.mcu < cfg.mxx * cfg.myy) →
      ∀ b0 b1 rest, ls.d.byteS = b0 :: b1 :: rest →
        ¬(b0 % 256 = 0xff ∧ b1 % 256 = 0x00) →
        ((b0 % 256 = 0xff ∧ b1 % 256 = ls.expRST →
          restartCheck cfg ls =
            .ok { ls with
                  expRST := if ls.expRST + 1 = rst7Marker + 1 then rst0Marker
                            else ls.expRST + 1
                  d := { ls.d with byteS := rest, bitsA := 0, dc := fun _ => 0,
                                   eobRun := 0 } }) ∧
         (¬(b0 % 256 = 0xff ∧ b1 % 256 = ls.expRST) →
          restartCheck cfg ls = .error (.format "bad RST marker")))) ∧
    ((cfg.ri > 0 ∧ ls.mcu % cfg.ri = 0 ∧ ls.mcu < cfg.mxx * cfg.myy) →
      ∀ c0 c1 rest, ls.d.byteS = 0xff :: 0x00 :: c0 :: c1 :: rest →
        ((c0 % 256 = 0xff ∧ c1 % 256 = ls.expRST →
          restartCheck cfg ls =
            .ok { ls with
                  expRST := if ls.expRST + 1 = rst7Marker + 1 then rst0Marker
                            else ls.expRST + 1
                  d := { ls.d with byteS := rest, bitsA := 0, dc := fun _ => 0,
                                   eobRun := 0 } }) ∧
         (¬(c0 % 256 = 0xff ∧ c1 % 256 = ls.expRST) →
          restartCheck cfg ls = .error (.format "bad RST marker")))) := by
  refine ⟨?_, ?_, ?_⟩
  · intro hntr
    unfold restartCheck
    rw [if_neg hntr]
  · intro htr b0 b1 rest hbytes hns
    have hread : readFull 2 ls.d =
        .ok ([b0 % 256, b1 % 256], { ls.d with byteS := rest }) := by
      unfold readFull
      rw [hbytes]
      simp
    constructor
    · intro hok
      unfold restartCheck
      rw [if_pos htr, hread]
      simp only [List.getD_cons_zero, List.getD_cons_succ]
      rw [if_neg hns]
      simp only [List.getD_cons_zero, List.getD_cons_succ]
      rw [if_neg (by omega)]
    · intro hne
      unfold restartCheck
      rw [if_pos htr, hread]
      simp only [List.getD_cons_zero, List.getD_cons_succ]
      rw [if_neg hns]
      simp only [List.getD_cons_zero, List.getD_cons_succ]
      rw [if_pos (by omega)]
  · intro htr c0 c1 rest hbytes
    have hread : readFull 2 ls.d =
        .ok ([0xff, 0x00], { ls.d with byteS := c0 :: c1 :: rest }) := by
      unfold readFull
      rw [hbytes]
      simp
    have hread2 : readFull 2 { ls.d with byteS := c0 :: c1 :: rest } =
        .ok ([c0 % 256, c1 % 256], { ls.d with byteS := rest }) := by
      unfold readFull
      simp
    constructor
    · intro hok
      unfold restartCheck
      rw [if_pos htr, hread]
      simp only [List.getD_cons_zero, List.getD_cons_succ]
      rw [if_pos ⟨trivial, trivial⟩, hread2]
      simp only [List.getD_cons_zero, List.getD_cons_succ]
      rw [if_neg (by omega)]
    · intro hne
      unfold restartCheck
      rw [if_pos htr, hread]
      simp only [List.getD_cons_zero, List.getD_cons_succ]
      rw [if_pos ⟨trivial, trivial⟩, hread2]
      simp only [List.getD_cons_zero, List.getD_cons_succ]
      rw [if_pos (by omega)]

/-- The frame configuration of the C3 witness: restart interval 1, two
MCUs. -/
def cfgR : Cfg where
  nComp := 3
  comp := fun j => if j = 0 then ⟨1, 2, 2, 0⟩ else ⟨j + 1, 1, 1, 0⟩
  width := 32
  height := 16
  ri := 1
  progressive := false
  quant := fun _ _ => 1
  idct := id
  toRGB := fun y _ _ => (y, y, y)

/-- A loop state right after the first MCU, its byte oracle holding a
stuffed pair followed by the RST0 marker. -/
def lsR : LoopSt :=
  ⟨⟨[], [], [], [], [0xff, 0x00, 0xff, 0xd0, 9], 0, 7, fun _ => 1,
    fun _ => zeroBlock, fun _ => 0⟩, 0, 1, rst0Marker, []⟩

/-- A loop state right after the first MCU, its byte oracle holding a
wrong marker. -/
def lsR2 : LoopSt :=
  ⟨⟨[], [], [], [], [0xff, 0xd3, 9], 0, 7, fun _ => 1,
    fun _ => zeroBlock, fun _ => 0⟩, 0, 1, rst0Marker, []⟩

/-- C3 witness: the restart rules evaluated on concrete byte streams
(one stuffed success, one mismatch). -/
theorem restart_spec_witness :
    restartCheck cfgR lsR =
      .ok { lsR with
            expRST := if lsR.expRST + 1 = rst7Marker + 1 then rst0Marker
                      else lsR.expRST + 1
            d := { lsR.d with byteS := [9], bitsA := 0, dc := fun _ => 0,
                              eobRun := 0 } } ∧
    restartCheck cfgR lsR2 = .error (.format "bad RST marker") := by
  constructor
  · exact (((restart_spec cfgR lsR).2.2) (by decide) 0xff 0xd0 [9] rfl).1 (by decide)
  · exact (((restart_spec cfgR lsR2).2.1) (by decide) 0xff 0xd3 [9] rfl (by decide)).2
      (by decide)

/-! ### C4: refinement passes preserve signs and magnitudes -/

/-- A one-bit correction applied to a non-zero coefficient: its
magnitude grows by exactly `delta`, its sign is kept. -/
def corr (delta x y : Int) : Prop :=
  (0 < x ∧ y = x + delta) ∨ (x < 0 ∧ y = x - delta)

set_option maxRecDepth 8000 in
theorem unzig_injOn :
    ∀ z1 ∈ List.range blockSize, ∀ z2 ∈ List.range blockSize,
      unzig z1 = unzig z2 → z1 = z2 := by
  decide

theorem unzig_inj {z1 z2 : Nat} (h1 : z1 < blockSize) (h2 : z2 < blockSize)
    (h : unzig z1 = unzig z2) : z1 = z2 :=
  unzig_injOn z1 (List.mem_range.mpr h1) z2 (List.mem_range.mpr h2) h

theorem refineNZF_props (zigEnd : Nat) (delta : Int) (hze : zigEnd < blockSize) :
    ∀ (fuel zig : Nat) (nz : Int) (b : Block) (d : DecState) (zf : Nat) (bf : Block)
      (df : DecState),
      refineNZF zigEnd delta fuel zig nz b d = .ok (zf, bf, df) →
      zig ≤ zf ∧
      (zf ≤ zigEnd → bf (unzig zf) = 0) ∧
      (∀ u, bf u = b u ∨
        ∃ z, zig ≤ z ∧ z < zf ∧ z ≤ zigEnd ∧ u = unzig z ∧ b u ≠ 0 ∧
          corr delta (b u) (bf u)) := by
  intro fuel
  induction fuel with
  | zero =>
    intro zig nz b d zf bf df h
    unfold refineNZF at h
    split at h
    · cases h
      refine ⟨Nat.le_refl _, fun hc => absurd hc (by omega), fun u => Or.inl rfl⟩
    · exact absurd h (by simp)
  | succ fuel ih =>
    intro zig nz b d zf bf df h
    by_cases hgt : zig > zigEnd
    · unfold refineNZF at h
      rw [if_pos hgt] at h
      cases h
      refine ⟨Nat.le_refl _, fun hc => absurd hc (by omega), fun u => Or.inl rfl⟩
    · have hle : zig ≤ zigEnd := by omega
      unfold refineNZF at h
      rw [if_neg hgt] at h
      dsimp only at h
      by_cases hzero : b (unzig zig) = 0
      · rw [if_pos hzero] at h
        by_cases hnz : nz = 0
        · rw [if_pos hnz] at h
          cases h
          exact ⟨Nat.le_refl _, fun _ => hzero, fun u => Or.inl rfl⟩
        · rw [if_neg hnz] at h
          have hp := ih (zig + 1) (nz - 1) b d zf bf df h
          refine ⟨by omega, hp.2.1, fun u => ?_⟩
          rcases hp.2.2 u with h1 | ⟨z, hz1, hz2, hz3, hz4, hz5, hz6⟩
          · exact Or.inl h1
          · exact Or.inr ⟨z, by omega, hz2, hz3, hz4, hz5, hz6⟩
      · rw [if_neg hzero] at h
        rcases hdb : decodeBit d with e | p
        · rw [hdb] at h
          exact absurd h (by simp)
        · obtain ⟨bit, d2⟩ := p
          rw [hdb] at h
          dsimp only at h
          by_cases hf : bit = false
          · rw [if_pos hf] at h
            have hp := ih (zig + 1) nz b d2 zf bf df h
            refine ⟨by omega, hp.2.1, fun u => ?_⟩
            rcases hp.2.2 u with h1 | ⟨z, hz1, hz2, hz3, hz4, hz5, hz6⟩
            · exact Or.inl h1
            · exact Or.inr ⟨z, by omega, hz2, hz3, hz4, hz5, hz6⟩
          · rw [if_neg hf] at h
            by_cases hpos : b (unzig zig) ≥ 0
            · rw [if_pos hpos] at h
              have hp := ih (zig + 1) nz
                (Function.update b (unzig zig) (b (unzig zig) + delta)) d2 zf bf df h
              have hzf : zig + 1 ≤ zf := hp.1
              refine ⟨by omega, hp.2.1, fun u => ?_⟩
              rcases hp.2.2 u with h1 | ⟨z, hz1, hz2, hz3, hz4, hz5, hz6⟩
              · by_cases hu : u = unzig zig
                · subst hu
                  rw [Function.update_apply, if_pos rfl] at h1
                  exact Or.inr ⟨zig, Nat.le_refl _, by omega, hle, rfl, hzero,
                    Or.inl ⟨by omega, h1⟩⟩
                · rw [Function.update_apply, if_neg hu] at h1
                  exact Or.inl h1
              · have hne : u ≠ unzig zig := by
                  rw [hz4]
                  intro hEq
                  have := unzig_inj (by omega) (by omega) hEq
                  omega
                rw [Function.update_apply, if_neg hne] at hz5 hz6
                exact Or.inr ⟨z, by omega, hz2, hz3, hz4, hz5, hz6⟩
            · rw [if_neg hpos] at h
              have hp := ih (zig + 1) nz
                (Function.update b (unzig zig) (b (unzig zig) - delta)) d2 zf bf df h
              have hzf : zig + 1 ≤ zf := hp.1
              refine ⟨by omega, hp.2.1, fun u => ?_⟩
              rcases hp.2.2 u with h1 | ⟨z, hz1, hz2, hz3, hz4, hz5, hz6⟩
              · by_cases hu : u = unzig zig
                · subst hu
                  rw [Function.update_apply, if_pos rfl] at h1
                  exact Or.inr ⟨zig, Nat.le_refl _, by omega, hle, rfl, hzero,
                    Or.inr ⟨by omega, h1⟩⟩
                · rw [Function.update_apply, if_neg hu] at h1
                  exact Or.inl h1
              · have hne : u ≠ unzig zig := by
                  rw [hz4]
                  intro hEq
                  have := unzig_inj (by omega) (by omega) hEq
                  omega
                rw [Function.update_apply, if_neg hne] at hz5 hz6
                exact Or.inr ⟨z, by omega, hz2, hz3, hz4, hz5, hz6⟩

theorem nat_lor_ne_zero (m n : Nat) (h : m ≠ 0) : m ||| n ≠ 0 := by
  intro hc
  apply h
  apply Nat.eq_of_testBit_eq
  intro k
  have hk := congrArg (fun x => x.testBit k) hc
  simp only [Nat.testBit_lor, Nat.zero_testBit, Bool.or_eq_false_iff] at hk
  simp [hk.1]

theorem int_lor_sign (x : Int) (n : Nat) (hx : x ≠ 0) :
    Int.lor x (n : Int) ≠ 0 ∧ (0 < x ↔ 0 < Int.lor x (n : Int)) := by
  cases x with
  | ofNat m =>
    have hm : m ≠ 0 := by simpa using hx
    have hred : Int.lor (Int.ofNat m) (n : Int) = Int.ofNat (m ||| n) := by
      simp [Int.lor]
    rw [hred]
    constructor
    · simpa using nat_lor_ne_zero m n hm
    · constructor
      · intro _
        exact Int.ofNat_pos.mpr (Nat.pos_of_ne_zero (nat_lor_ne_zero m n hm))
      · intro _
        exact Int.ofNat_pos.mpr (Nat.pos_of_ne_zero hm)
  | negSucc m =>
    have hred : Int.lor (Int.negSucc m) (n : Int) = Int.negSucc (Nat.ldiff m n) := by
      simp [Int.lor]
    rw [hred]
    constructor
    · simp
    · constructor
      · intro hc
        exact absurd hc (lt_asymm (Int.negSucc_lt_zero _))
      · intro hc
        exact absurd hc (lt_asymm (Int.negSucc_lt_zero _))

theorem refineLoopF_props (zigEnd : Nat) (delta : Int) (hze : zigEnd < blockSize) :
    ∀ (fuel zig : Nat) (b : Block) (d : DecState) (zf : Nat) (bf : Block)
      (df : DecState),
      refineLoopF zigEnd delta fuel zig b d = .ok (zf, bf, df) →
      zig ≤ zf ∧
      (∀ u, bf u = b u ∨
        ∃ z, zig ≤ z ∧ z < zf ∧ z ≤ zigEnd ∧ u = unzig z ∧
          ((b u ≠ 0 ∧ corr delta (b u) (bf u)) ∨ b u = 0)) := by
  intro fuel
  induction fuel with
  | zero =>
    intro zig b d zf bf df h
    unfold refineLoopF at h
    split at h
    · cases h
      exact ⟨Nat.le_refl _, fun u => Or.inl rfl⟩
    · exact absurd h (by simp)
  | succ fuel ih =>
    intro zig b d zf bf df h
    by_cases hgt : zig > zigEnd
    · unfold refineLoopF at h
      rw [if_pos hgt] at h
      cases h
      exact ⟨Nat.le_refl _, fun u => Or.inl rfl⟩
    · have hle : zig ≤ zigEnd := by omega
      unfold refineLoopF at h
      rw [if_neg hgt] at h
      dsimp only at h
      rcases hdh : decodeHuffman d with e | p
      · rw [hdh] at h
        exact absurd h (by simp)
      obtain ⟨value, d1⟩ := p
      rw [hdh] at h
      dsimp only at h
      by_cases hv1 : value % 16 = 0
      · rw [if_pos hv1] at h
        by_cases hv0 : value / 16 ≠ 15
        · rw [if_pos hv0] at h
          by_cases hv00 : value / 16 ≠ 0
          · rw [if_pos hv00] at h
            rcases hdbits : decodeBits (value / 16) d1 with e | q
            · rw [hdbits] at h
              exact absurd h (by simp)
            obtain ⟨bv, d2⟩ := q
            rw [hdbits] at h
            dsimp only at h
            cases h
            exact ⟨Nat.le_refl _, fun u => Or.inl rfl⟩
          · rw [if_neg hv00] at h
            dsimp only at h
            cases h
            exact ⟨Nat.le_refl _, fun u => Or.inl rfl⟩
        · rw [if_neg hv0] at h
          rcases hnz : refineNZF zigEnd delta (zigEnd + 1 - zig) zig (15 : Int) b d1
            with e | t
          · rw [hnz] at h
            exact absurd h (by simp)
          obtain ⟨z1, b1, d2⟩ := t
          rw [hnz] at h
          dsimp only at h
          by_cases hz1 : z1 > zigEnd
          · rw [if_pos hz1] at h
            exact absurd h (by simp)
          · rw [if_neg hz1] at h
            have hp1 := refineNZF_props zigEnd delta hze _ _ _ _ _ _ _ _ hnz
            have hp2 := ih (z1 + 1) b1 d2 zf bf df h
            refine ⟨by have := hp1.1; have := hp2.1; omega, fun u => ?_⟩
            rcases hp2.2 u with h2 | ⟨z2, hz21, hz22, hz23, hz24, h2rel⟩
            · rcases hp1.2.2 u with h1 | ⟨z, hza, hzb, hzc, hzd, hzne, hcorr⟩
              · exact Or.inl (h2.trans h1)
              · rw [← h2] at hcorr
                exact Or.inr ⟨z, hza, by have := hp2.1; omega, hzc, hzd,
                  Or.inl ⟨hzne, hcorr⟩⟩
            · have hb1u : b1 u = b u := by
                rcases hp1.2.2 u with h1 | ⟨z, hza, hzb, hzc, hzd, hzne, hcorr⟩
                · exact h1
                · exfalso
                  rw [hzd] at hz24
                  have := unzig_inj (by unfold blockSize at hze ⊢; omega)
                    (by unfold blockSize at hze ⊢; omega) hz24
                  omega
              rw [hb1u] at h2rel
              exact Or.inr ⟨z2, by have := hp1.1; omega, hz22, hz23, hz24, h2rel⟩
      · by_cases hv11 : value % 16 = 1
        · rw [if_neg hv1, if_pos hv11] at h
          rcases hdb : decodeBit d1 with e | q
          · rw [hdb] at h
            exact absurd h (by simp)
          obtain ⟨bit, d2⟩ := q
          rw [hdb] at h
          dsimp only at h
          rcases hnz : refineNZF zigEnd delta (zigEnd + 1 - zig) zig
              ((value / 16 : Nat) : Int) b d2 with e | t
          · rw [hnz] at h
            exact absurd h (by simp)
          obtain ⟨z1, b1, d3⟩ := t
          rw [hnz] at h
          dsimp only at h
          by_cases hz1 : z1 > zigEnd
          · rw [if_pos hz1] at h
            exact absurd h (by simp)
          · rw [if_neg hz1] at h
            have hp1 := refineNZF_props zigEnd delta hze _ _ _ _ _ _ _ _ hnz
            have hp2 := ih (z1 + 1) _ d3 zf bf df h
            have hb1z : b1 (unzig z1) = 0 := hp1.2.1 (by omega)
            have hbz : b (unzig z1) = 0 := by
              rcases hp1.2.2 (unzig z1) with h1 | ⟨z, hza, hzb, hzc, hzd, hzne, hcorr⟩
              · rw [← h1]
                exact hb1z
              · exfalso
                have := unzig_inj (by unfold blockSize at hze ⊢; omega)
                  (by unfold blockSize at hze ⊢; omega) hzd
                omega
            have hbupd : ∀ u, u ≠ unzig z1 →
                (if (if bit then delta else -delta) ≠ 0 then
                  Function.update b1 (unzig z1) (if bit then delta else -delta)
                 else b1) u = b1 u := by
              intro u hu
              by_cases hzne : (if bit then delta else -delta) ≠ 0
              · rw [if_pos hzne, Function.update_apply, if_neg hu]
              · rw [if_neg hzne]
            refine ⟨by have := hp1.1; have := hp2.1; omega, fun u => ?_⟩
            by_cases hu : u = unzig z1
            · subst hu
              exact Or.inr ⟨z1, hp1.1, by have := hp2.1; omega, by omega, rfl,
                Or.inr hbz⟩
            · rcases hp2.2 u with h2 | ⟨z2, hz21, hz22, hz23, hz24, h2rel⟩
              · rw [hbupd u hu] at h2
                rcases hp1.2.2 u with h1 | ⟨z, hza, hzb, hzc, hzd, hzne, hcorr⟩
                · exact Or.inl (h2.trans h1)
                · rw [← h2] at hcorr
                  exact Or.inr ⟨z, hza, by have := hp2.1; omega, hzc, hzd,
                    Or.inl ⟨hzne, hcorr⟩⟩
              · rw [hbupd u hu] at h2rel
                have hb1u : b1 u = b u := by
                  rcases hp1.2.2 u with h1 | ⟨z, hza, hzb, hzc, hzd, hzne, hcorr⟩
                  · exact h1
                  · exfalso
                    rw [hzd] at hz24
                    have := unzig_inj (by unfold blockSize at hze ⊢; omega)
                      (by unfold blockSize at hze ⊢; omega) hz24
                    omega
                rw [hb1u] at h2rel
                exact Or.inr ⟨z2, by have := hp1.1; omega, hz22, hz23, hz24, h2rel⟩
        · rw [if_neg hv1, if_neg hv11] at h
          exact absurd h (by simp)

/-- C4.  A refinement pass never flips the sign of an already non-zero
coefficient and never zeroes it: DC refinement only ORs the bit `2^al`
into coefficient 0, and in an AC refinement every already non-zero
coefficient is either left unchanged or moved away from zero by exactly
the delta `2^al` in the direction of its sign, for every block, every
position, and every sequence of primitive-decoder results. -/
theorem refine_monotone (zigStart zigEnd al : Nat) (b : Block) (d : DecState)
    (b' : Block) (d' : DecState) (hze : zigEnd < blockSize)
    (h : refine zigStart zigEnd (2 ^ al) b d = .ok (b', d')) :
    (∀ u, b u ≠ 0 → b' u ≠ 0 ∧ (0 < b u ↔ 0 < b' u)) ∧
    (zigStart = 0 → b' = b ∨ b' = Function.update b 0 (Int.lor (b 0) (2 ^ al))) ∧
    (zigStart ≠ 0 → ∀ u, b u ≠ 0 →
      b' u = b u ∨ (0 < b u ∧ b' u = b u + 2 ^ al) ∨ (b u < 0 ∧ b' u = b u - 2 ^ al)) := by
  have hcast : (2 : Int) ^ al = ((2 ^ al : Nat) : Int) := by push_cast; ring
  have hdpos : (0 : Int) < 2 ^ al := by positivity
  by_cases hzs : zigStart = 0
  · unfold refine at h
    rw [if_pos hzs] at h
    by_cases hzE : zigEnd ≠ 0
    · rw [if_pos hzE] at h
      exact absurd h (by simp)
    · rw [if_neg hzE] at h
      rcases hdb : decodeBit d with e | q
      · rw [hdb] at h
        exact absurd h (by simp)
      obtain ⟨bit, d2⟩ := q
      rw [hdb] at h
      dsimp only at h
      cases bit with
      | false =>
        rw [if_neg (by simp)] at h
        cases h
        exact ⟨fun u hu => ⟨hu, Iff.rfl⟩, fun _ => Or.inl rfl,
          fun hne => absurd hzs hne⟩
      | true =>
        rw [if_pos rfl] at h
        cases h
        refine ⟨?_, fun _ => Or.inr rfl, fun hne => absurd hzs hne⟩
        intro u hu
        rw [Function.update_apply]
        by_cases hu0 : u = 0
        · rw [if_pos hu0]
          subst hu0
          rw [hcast]
          exact int_lor_sign (b 0) (2 ^ al) hu
        · rw [if_neg hu0]
          exact ⟨hu, Iff.rfl⟩
  · unfold refine at h
    rw [if_neg hzs] at h
    have key : ∀ u, b' u = b u ∨
        ((b u ≠ 0 ∧ corr (2 ^ al) (b u) (b' u)) ∨ b u = 0) := by
      by_cases heob : d.eobRun = 0
      · rw [if_pos heob] at h
        rcases hlp : refineLoopF zigEnd (2 ^ al) (zigEnd + 1 - zigStart) zigStart b d
          with e | t
        · rw [hlp] at h
          exact absurd h (by simp)
        obtain ⟨z1, b1, d1⟩ := t
        rw [hlp] at h
        dsimp only at h
        have hp1 := refineLoopF_props zigEnd (2 ^ al) hze _ _ _ _ _ _ _ hlp
        by_cases hrun : d1.eobRun > 0
        · rw [if_pos hrun] at h
          rcases hnz : refineNZF zigEnd (2 ^ al) (zigEnd + 1 - z1) z1 (-1) b1
              { d1 with eobRun := d1.eobRun - 1 } with e | t2
          · rw [hnz] at h
            exact absurd h (by simp)
          obtain ⟨z2f, b2, d2⟩ := t2
          rw [hnz] at h
          dsimp only at h
          cases h
          have hp2 := refineNZF_props zigEnd (2 ^ al) hze _ _ _ _ _ _ _ _ hnz
          intro u
          rcases hp2.2.2 u with h2 | ⟨z2, hz21, hz22, hz23, hz24, hz2ne, hz2c⟩
          · rcases hp1.2 u with h1 | ⟨z, hza, hzb, hzc, hzd, hrel⟩
            · exact Or.inl (h2.trans h1)
            · rw [← h2] at hrel
              exact Or.inr hrel
          · have hb1u : b1 u = b u := by
              rcases hp1.2 u with h1 | ⟨z, hza, hzb, hzc, hzd, hrel⟩
              · exact h1
              · exfalso
                rw [hzd] at hz24
                have := unzig_inj (by unfold blockSize at hze ⊢; omega)
                  (by unfold blockSize at hze ⊢; omega) hz24
                omega
            rw [hb1u] at hz2ne hz2c
            exact Or.inr (Or.inl ⟨hz2ne, hz2c⟩)
        · rw [if_neg hrun] at h
          cases h
          intro u
          rcases hp1.2 u with h1 | ⟨z, hza, hzb, hzc, hzd, hrel⟩
          · exact Or.inl h1
          · exact Or.inr hrel
      · rw [if_neg heob] at h
        dsimp only at h
        rw [if_pos (by omega : d.eobRun > 0)] at h
        rcases hnz : refineNZF zigEnd (2 ^ al) (zigEnd + 1 - zigStart) zigStart (-1) b
            { d with eobRun := d.eobRun - 1 } with e | t2
        · rw [hnz] at h
          exact absurd h (by simp)
        obtain ⟨z2f, b2, d2⟩ := t2
        rw [hnz] at h
        dsimp only at h
        cases h
        have hp2 := refineNZF_props zigEnd (2 ^ al) hze _ _ _ _ _ _ _ _ hnz
        intro u
        rcases hp2.2.2 u with h2 | ⟨z2, hz21, hz22, hz23, hz24, hz2ne, hz2c⟩
        · exact Or.inl h2
        · exact Or.inr (Or.inl ⟨hz2ne, hz2c⟩)
    refine ⟨?_, fun hc => absurd hc hzs, ?_⟩
    · intro u hu
      rcases key u with h1 | ⟨hne, hc⟩ | hzero
      · rw [h1]
        exact ⟨hu, Iff.rfl⟩
      · rcases hc with ⟨hx, hy⟩ | ⟨hx, hy⟩
        · rw [hy]
          constructor
          · omega
          · constructor
            · intro _
              omega
            · intro _
              exact hx
        · rw [hy]
          constructor
          · omega
          · constructor
            · intro hc
              omega
            · intro hc
              omega
      · exact absurd hzero hu
    · intro _ u hu
      rcases key u with h1 | ⟨hne, hc⟩ | hzero
      · exact Or.inl h1
      · rcases hc with ⟨hx, hy⟩ | ⟨hx, hy⟩
        · exact Or.inr (Or.inl ⟨hx, hy⟩)
        · exact Or.inr (Or.inr ⟨hx, hy⟩)
      · exact absurd hzero hu

/-- A block whose only non-zero coefficient sits at natural position 1. -/
def bW : Block := fun u => if u = 1 then 5 else 0

/-- A state driving one AC refinement: an immediate end-of-band symbol
and one correction bit. -/
def dRef : DecState :=
  ⟨[0], [true], [], [], [], 0, 0, fun _ => 0, fun _ => zeroBlock, fun _ => 0⟩

/-- The concrete refinement result used by the C4 witness. -/
def refRes : Block × DecState := okOr (refine 1 63 (2 ^ 0) bW dRef) (bW, dRef)

/-- C4 witness: the refinement invariants evaluated on a concrete
one-coefficient block and concrete streams. -/
theorem refine_monotone_witness :
    (∀ u, bW u ≠ 0 → refRes.1 u ≠ 0 ∧ (0 < bW u ↔ 0 < refRes.1 u)) ∧
    ((1 : Nat) = 0 → refRes.1 = bW ∨
      refRes.1 = Function.update bW 0 (Int.lor (bW 0) (2 ^ 0))) ∧
    ((1 : Nat) ≠ 0 → ∀ u, bW u ≠ 0 →
      refRes.1 u = bW u ∨ (0 < bW u ∧ refRes.1 u = bW u + 2 ^ 0) ∨
        (bW u < 0 ∧ refRes.1 u = bW u - 2 ^ 0)) :=
  refine_monotone 1 63 0 bW dRef refRes.1 refRes.2 (by decide) rfl

/-! ### Traversal traces: shared machinery for C2, C5 and C10 -/

theorem visits_append (x y : List Ev) : visits (x ++ y) = visits x ++ visits y := by
  induction x with
  | nil => rfl
  | cons e t ih =>
    cases e <;> simp [visits, ih]

theorem restartCheck_skeleton (cfg : Cfg) (ls ls' : LoopSt)
    (h : restartCheck cfg ls = .ok ls') :
    ls'.events = ls.events ∧ ls'.blockCount = ls.blockCount ∧ ls'.mcu = ls.mcu := by
  unfold restartCheck at h
  split at h
  · rcases h1 : readFull 2 ls.d with e | p
    · rw [h1] at h
      exact absurd h (by simp)
    obtain ⟨tmp, d1⟩ := p
    rw [h1] at h
    dsimp only at h
    rcases h2 : (if tmp.getD 0 0 = 0xff ∧ tmp.getD 1 0 = 0x00 then readFull 2 d1
        else .ok (tmp, d1) : Except JErr (List Nat × DecState)) with e | p2
    · rw [h2] at h
      exact absurd h (by simp)
    obtain ⟨tmp2, d2⟩ := p2
    rw [h2] at h
    dsimp only at h
    split at h
    · exact absurd h (by simp)
    · cases h
      exact ⟨rfl, rfl, rfl⟩
  · cases h
    exact ⟨rfl, rfl, rfl⟩

theorem decodeAt_visits (cfg : Cfg) (sc : ScanCtx) (ci hi bx byi : Nat)
    (ls ls' : LoopSt) (h : decodeAt cfg sc ci hi bx byi ls = .ok ls') :
    visits ls'.events = visits ls.events ++ [(ci, bx, byi)] ∧
    ls'.blockCount = ls.blockCount ∧ ls'.mcu = ls.mcu ∧ ls'.expRST = ls.expRST := by
  unfold decodeAt at h
  dsimp only at h
  rcases hdec : (if sc.ah ≠ 0 then refine sc.zigStart sc.zigEnd (2 ^ sc.al)
      (if cfg.progressive then ls.d.store (ci, byi * cfg.mxx * hi + bx) else zeroBlock)
      ls.d
    else firstPassBlock sc ci
      (if cfg.progressive then ls.d.store (ci, byi * cfg.mxx * hi + bx) else zeroBlock)
      ls.d) with e | p
  · rw [hdec] at h
    exact absurd h (by simp)
  obtain ⟨b1, d1⟩ := p
  rw [hdec] at h
  dsimp only at h
  split at h
  · cases h
    simp [visits_append, visits]
  · rcases hrec : reconstructBlock cfg b1 ci with e | dst
    · rw [hrec] at h
      exact absurd h (by simp)
    rw [hrec] at h
    dsimp only at h
    split at h
    · cases h
      simp [visits_append, visits]
    · split at h
      · cases h
        simp [visits_append, visits]
      · split at h
        · cases h
          refine ⟨?_, rfl, rfl, rfl⟩
          simp [visits_append, visits]
        · cases h
          simp [visits_append, visits]

theorem foldE_trace {α β : Type} (f : α → LoopSt → Except JErr LoopSt)
    (ev : LoopSt → List β) (c : α → List β)
    (hstep : ∀ a s s', f a s = .ok s' → ev s' = ev s ++ c a) :
    ∀ (l : List α) (s s' : LoopSt), foldE f l s = .ok s' →
      ev s' = ev s ++ l.flatMap c := by
  intro l
  induction l with
  | nil =>
    intro s s' h
    unfold foldE at h
    cases h
    simp
  | cons a t ih =>
    intro s s' h
    unfold foldE at h
    rcases hf : f a s with e | s1
    · rw [hf] at h
      exact absurd h (by simp)
    · rw [hf] at h
      dsimp only at h
      rw [ih s1 s' h, hstep a s s1 hf]
      simp

theorem foldE_trace_cnt {α β : Type} (f : α → LoopSt → Except JErr LoopSt)
    (ev : LoopSt → List β) (cnt : LoopSt → Nat) (c : Nat → List β) (m : Nat)
    (hstep : ∀ a s s', f a s = .ok s' →
      ev s' = ev s ++ c (cnt s) ∧ cnt s' = cnt s + m) :
    ∀ (l : List α) (s s' : LoopSt), foldE f l s = .ok s' →
      ev s' = ev s ++ (List.range l.length).flatMap (fun t => c (cnt s + m * t)) ∧
      cnt s' = cnt s + m * l.length := by
  intro l
  induction l with
  | nil =>
    intro s s' h
    unfold foldE at h
    cases h
    simp
  | cons a t ih =>
    intro s s' h
    unfold foldE at h
    rcases hf : f a s with e | s1
    · rw [hf] at h
      exact absurd h (by simp)
    · rw [hf] at h
      dsimp only at h
      obtain ⟨he1, hc1⟩ := hstep a s s1 hf
      obtain ⟨he2, hc2⟩ := ih s1 s' h
      constructor
      · rw [he2, he1, hc1]
        simp only [List.length_cons, List.range_succ_eq_map, List.flatMap_cons,
          List.flatMap_map, List.append_assoc, Nat.mul_zero, Nat.add_zero]
        rw [show (fun a => c (cnt s + m * a.succ)) = fun x => c (cnt s + m + m * x) by
          funext x
          congr 1
          rw [Nat.mul_succ]
          omega]
      · rw [hc2, hc1, List.length_cons]
        ring

theorem flatMap_range_mul {β : Type} (c : Nat → List β) :
    ∀ (a b s : Nat),
      (List.range a).flatMap (fun i => (List.range b).flatMap (fun j => c (s + b * i + j))) =
      (List.range (a * b)).flatMap (fun t => c (s + t)) := by
  intro a
  induction a with
  | zero => simp
  | succ a ih =>
    intro b s
    rw [List.range_succ, List.flatMap_append, ih b s, Nat.succ_mul, List.range_add,
      List.flatMap_append]
    congr 1
    simp only [List.flatMap_cons, List.flatMap_nil, List.append_nil, List.flatMap_map]
    apply List.flatMap_congr
    intro x _
    congr 1
    ring

theorem foldE_pres {α : Type} (f : α → LoopSt → Except JErr LoopSt)
    (g : LoopSt → Nat) (hstep : ∀ a s s', f a s = .ok s' → g s' = g s) :
    ∀ (l : List α) (s s' : LoopSt), foldE f l s = .ok s' → g s' = g s := by
  intro l
  induction l with
  | nil =>
    intro s s' h
    unfold foldE at h
    cases h
    rfl
  | cons a t ih =>
    intro s s' h
    unfold foldE at h
    rcases hf : f a s with e | s1
    · rw [hf] at h
      exact absurd h (by simp)
    · rw [hf] at h
      dsimp only at h
      rw [ih s1 s' h, hstep a s s1 hf]

/-- The per-block visit chunk of a non-interleaved scan: the raster
coordinates of block counter `k`, or nothing when the block's top-left
pixel lies outside the image. -/
def singleChunk (cfg : Cfg) (scomp : ScanComp) (k : Nat) : List (Nat × Nat × Nat) :=
  let q := cfg.mxx * (cfg.comp scomp.compIndex).h
  if k % q * 8 ≥ cfg.width ∨ k / q * 8 ≥ cfg.height then []
  else [(scomp.compIndex, k % q, k / q)]

theorem blockStep_single_step (cfg : Cfg) (sc : ScanCtx) (scomp : ScanComp)
    (mx my j : Nat) (ls ls' : LoopSt) (hone : ¬sc.comps.length ≠ 1)
    (h : blockStep cfg sc scomp mx my j ls = .ok ls') :
    visits ls'.events = visits ls.events ++ singleChunk cfg scomp ls.blockCount ∧
    ls'.blockCount = ls.blockCount + 1 ∧ ls'.mcu = ls.mcu := by
  unfold blockStep at h
  dsimp only at h
  rw [if_neg hone] at h
  unfold singleChunk
  dsimp only
  split at h
  · rename_i hskip
    cases h
    rw [if_pos hskip]
    exact ⟨by simp, rfl, rfl⟩
  · rename_i hin
    rw [if_neg hin]
    have hv := decodeAt_visits cfg sc scomp.compIndex (cfg.comp scomp.compIndex).h
      (ls.blockCount % (cfg.mxx * (cfg.comp scomp.compIndex).h))
      (ls.blockCount / (cfg.mxx * (cfg.comp scomp.compIndex).h))
      { ls with blockCount := ls.blockCount + 1 } ls' h
    exact ⟨hv.1, hv.2.1, hv.2.2.1⟩

theorem compStep_single (cfg : Cfg) (sc : ScanCtx) (scomp : ScanComp)
    (mx my : Nat) (ls ls' : LoopSt) (hone : ¬sc.comps.length ≠ 1)
    (h : compStep cfg sc mx my scomp ls = .ok ls') :
    visits ls'.events = visits ls.events ++
      (List.range ((cfg.comp scomp.compIndex).h * (cfg.comp scomp.compIndex).v)).flatMap
        (fun t => singleChunk cfg scomp (ls.blockCount + t)) ∧
    ls'.blockCount =
      ls.blockCount + (cfg.comp scomp.compIndex).h * (cfg.comp scomp.compIndex).v ∧
    ls'.mcu = ls.mcu := by
  unfold compStep at h
  have hm := foldE_pres _ (fun ls => ls.mcu)
    (fun a s s' hs => (blockStep_single_step cfg sc scomp mx my a s s' hone hs).2.2)
    _ _ _ h
  have ht := foldE_trace_cnt _ (fun ls => visits ls.events) (fun ls => ls.blockCount)
    (singleChunk cfg scomp) 1
    (fun a s s' hs => ⟨(blockStep_single_step cfg sc scomp mx my a s s' hone hs).1,
      (blockStep_single_step cfg sc scomp mx my a s s' hone hs).2.1⟩)
    _ _ _ h
  dsimp only at hm ht
  refine ⟨?_, ?_, hm⟩
  · rw [ht.1]
    congr 1
    simp only [List.length_range]
    apply List.flatMap_congr
    intro x _
    congr 1
    ring
  · rw [ht.2]
    simp

theorem mcuStep_single (cfg : Cfg) (sc : ScanCtx) (scomp : ScanComp)
    (my mx : Nat) (ls ls' : LoopSt) (hcomps : sc.comps = [scomp])
    (h : mcuStep cfg sc my mx ls = .ok ls') :
    visits ls'.events = visits ls.events ++
      (List.range ((cfg.comp scomp.compIndex).h * (cfg.comp scomp.compIndex).v)).flatMap
        (fun t => singleChunk cfg scomp (ls.blockCount + t)) ∧
    ls'.blockCount =
      ls.blockCount + (cfg.comp scomp.compIndex).h * (cfg.comp scomp.compIndex).v := by
  have hone : ¬sc.comps.length ≠ 1 := by
    rw [hcomps]
    simp
  unfold mcuStep at h
  rw [hcomps] at h
  unfold foldE at h
  rcases hcs : compStep cfg sc mx my scomp ls with e | ls1
  · rw [hcs] at h
    exact absurd h (by simp)
  · rw [hcs] at h
    dsimp only at h
    unfold foldE at h
    dsimp only at h
    have hr := restartCheck_skeleton cfg _ _ h
    have hc := compStep_single cfg sc scomp mx my ls ls1 hone hcs
    refine ⟨?_, ?_⟩
    · rw [hr.1]
      exact hc.1
    · rw [hr.2.1]
      exact hc.2.1

theorem rowStep_single (cfg : Cfg) (sc : ScanCtx) (scomp : ScanComp)
    (my : Nat) (ls ls' : LoopSt) (hcomps : sc.comps = [scomp])
    (h : rowStep cfg sc my ls = .ok ls') :
    visits ls'.events = visits ls.events ++
      (List.range cfg.mxx).flatMap
        (fun t => (List.range ((cfg.comp scomp.compIndex).h * (cfg.comp scomp.compIndex).v)).flatMap
          (fun t2 => singleChunk cfg scomp
            (ls.blockCount +
              (cfg.comp scomp.compIndex).h * (cfg.comp scomp.compIndex).v * t + t2))) ∧
    ls'.blockCount = ls.blockCount +
      (cfg.comp scomp.compIndex).h * (cfg.comp scomp.compIndex).v * cfg.mxx := by
  unfold rowStep at h
  have ht := foldE_trace_cnt _ (fun ls => visits ls.events) (fun ls => ls.blockCount)
    (fun k => (List.range ((cfg.comp scomp.compIndex).h * (cfg.comp scomp.compIndex).v)).flatMap
      (fun t2 => singleChunk cfg scomp (k + t2)))
    ((cfg.comp scomp.compIndex).h * (cfg.comp scomp.compIndex).v)
    (fun a s s' hs => (mcuStep_single cfg sc scomp my a s s' hcomps hs))
    _ _ _ h
  dsimp only at ht
  simp only [List.length_range] at ht
  exact ht

theorem flatMap_range_mul3 {β : Type} (c : Nat → List β) (a b e : Nat) :
    (List.range a).flatMap (fun i => (List.range b).flatMap (fun j =>
      (List.range e).flatMap (fun k => c (b * e * i + e * j + k)))) =
    (List.range (a * (b * e))).flatMap c := by
  have h1 : ∀ i, (List.range b).flatMap (fun j => (List.range e).flatMap (fun k =>
      c (b * e * i + e * j + k))) =
      (List.range (b * e)).flatMap (fun t => c (b * e * i + t)) :=
    fun i => flatMap_range_mul c b e (b * e * i)
  rw [List.flatMap_congr (fun i _ => h1 i)]
  rw [show (fun i => (List.range (b * e)).flatMap (fun t => c (b * e * i + t))) =
      (fun i => (List.range (b * e)).flatMap (fun j => c (0 + b * e * i + j))) from
    funext fun i => List.flatMap_congr fun t _ => by rw [Nat.zero_add]]
  rw [flatMap_range_mul c a (b * e) 0]
  exact List.flatMap_congr fun t _ => by rw [Nat.zero_add]

theorem scanLoop_single (cfg : Cfg) (sc : ScanCtx) (scomp : ScanComp)
    (d : DecState) (ls' : LoopSt) (hcomps : sc.comps = [scomp])
    (h : scanLoop cfg sc d = .ok ls') :
    visits ls'.events =
      (List.range
          (cfg.myy * (cfg.mxx * ((cfg.comp scomp.compIndex).h * (cfg.comp scomp.compIndex).v)))).flatMap
        (singleChunk cfg scomp) ∧
    ls'.blockCount =
      cfg.myy * (cfg.mxx * ((cfg.comp scomp.compIndex).h * (cfg.comp scomp.compIndex).v)) := by
  unfold scanLoop at h
  set hv := (cfg.comp scomp.compIndex).h * (cfg.comp scomp.compIndex).v with hhv
  have ht := foldE_trace_cnt _ (fun ls => visits ls.events) (fun ls => ls.blockCount)
    (fun k => (List.range cfg.mxx).flatMap
      (fun t => (List.range hv).flatMap
        (fun t2 => singleChunk cfg scomp (k + hv * t + t2))))
    (hv * cfg.mxx)
    (fun a s s' hs => by
      dsimp only
      have hr := rowStep_single cfg sc scomp a s s' hcomps hs
      rw [← hhv] at hr
      exact ⟨hr.1, hr.2⟩)
    _ _ _ h
  dsimp only at ht
  simp only [List.length_range, visits, List.nil_append] at ht
  obtain ⟨he, hc⟩ := ht
  constructor
  · rw [he]
    rw [← flatMap_range_mul3 (singleChunk cfg scomp) cfg.myy cfg.mxx hv]
    apply List.flatMap_congr
    intro t1 _
    apply List.flatMap_congr
    intro t _
    apply List.flatMap_congr
    intro t2 _
    congr 1
    ring
  · rw [hc]
    ring

theorem flatMap_singleton_eq_map {α β : Type} (g : α → β) :
    ∀ l : List α, (l.flatMap fun x => [g x]) = l.map g := by
  intro l
  induction l with
  | nil => rfl
  | cons a t ih => simp [ih]

/-- The per-MCU visit chunk of an interleaved scan: for each scan
component, its `h*v` blocks in raster order within the MCU sub-grid. -/
def interChunk (cfg : Cfg) (sc : ScanCtx) (my mx : Nat) : List (Nat × Nat × Nat) :=
  sc.comps.flatMap (fun scomp =>
    (List.range ((cfg.comp scomp.compIndex).h * (cfg.comp scomp.compIndex).v)).map
      (fun j => (scomp.compIndex,
        (cfg.comp scomp.compIndex).h * mx + j % (cfg.comp scomp.compIndex).h,
        (cfg.comp scomp.compIndex).v * my + j / (cfg.comp scomp.compIndex).h)))

theorem blockStep_inter (cfg : Cfg) (sc : ScanCtx) (scomp : ScanComp)
    (mx my j : Nat) (ls ls' : LoopSt) (hne : sc.comps.length ≠ 1)
    (h : blockStep cfg sc scomp mx my j ls = .ok ls') :
    visits ls'.events = visits ls.events ++
      [(scomp.compIndex,
        (cfg.comp scomp.compIndex).h * mx + j % (cfg.comp scomp.compIndex).h,
        (cfg.comp scomp.compIndex).v * my + j / (cfg.comp scomp.compIndex).h)] ∧
    ls'.blockCount = ls.blockCount ∧ ls'.mcu = ls.mcu := by
  unfold blockStep at h
  dsimp only at h
  rw [if_pos hne] at h
  have hv := decodeAt_visits cfg sc scomp.compIndex (cfg.comp scomp.compIndex).h
    _ _ ls ls' h
  exact ⟨hv.1, hv.2.1, hv.2.2.1⟩

theorem compStep_inter (cfg : Cfg) (sc : ScanCtx) (scomp : ScanComp)
    (mx my : Nat) (ls ls' : LoopSt) (hne : sc.comps.length ≠ 1)
    (h : compStep cfg sc mx my scomp ls = .ok ls') :
    visits ls'.events = visits ls.events ++
      (List.range ((cfg.comp scomp.compIndex).h * (cfg.comp scomp.compIndex).v)).map
        (fun j => (scomp.compIndex,
          (cfg.comp scomp.compIndex).h * mx + j % (cfg.comp scomp.compIndex).h,
          (cfg.comp scomp.compIndex).v * my + j / (cfg.comp scomp.compIndex).h)) ∧
    ls'.blockCount = ls.blockCount ∧ ls'.mcu = ls.mcu := by
  unfold compStep at h
  have hb := foldE_pres _ (fun ls => ls.blockCount)
    (fun a s s' hs => (blockStep_inter cfg sc scomp mx my a s s' hne hs).2.1) _ _ _ h
  have hm := foldE_pres _ (fun ls => ls.mcu)
    (fun a s s' hs => (blockStep_inter cfg sc scomp mx my a s s' hne hs).2.2) _ _ _ h
  have ht := foldE_trace _ (fun ls => visits ls.events)
    (fun j => [(scomp.compIndex,
      (cfg.comp scomp.compIndex).h * mx + j % (cfg.comp scomp.compIndex).h,
      (cfg.comp scomp.compIndex).v * my + j / (cfg.comp scomp.compIndex).h)])
    (fun a s s' hs => (blockStep_inter cfg sc scomp mx my a s s' hne hs).1) _ _ _ h
  dsimp only at hb hm ht
  rw [flatMap_singleton_eq_map] at ht
  exact ⟨ht, hb, hm⟩

theorem mcuStep_inter (cfg : Cfg) (sc : ScanCtx) (my mx : Nat) (ls ls' : LoopSt)
    (hne : sc.comps.length ≠ 1) (h : mcuStep cfg sc my mx ls = .ok ls') :
    visits ls'.events = visits ls.events ++ interChunk cfg sc my mx ∧
    ls'.blockCount = ls.blockCount := by
  unfold mcuStep at h
  rcases hcs : foldE (fun scomp ls => compStep cfg sc mx my scomp ls) sc.comps ls
    with e | ls1
  · rw [hcs] at h
    exact absurd h (by simp)
  · rw [hcs] at h
    dsimp only at h
    have hr := restartCheck_skeleton cfg _ _ h
    have hb := foldE_pres _ (fun ls => ls.blockCount)
      (fun a s s' hs => (compStep_inter cfg sc a mx my s s' hne hs).2.1) _ _ _ hcs
    have ht := foldE_trace _ (fun ls => visits ls.events)
      (fun scomp => (List.range ((cfg.comp scomp.compIndex).h * (cfg.comp scomp.compIndex).v)).map
        (fun j => (scomp.compIndex,
          (cfg.comp scomp.compIndex).h * mx + j % (cfg.comp scomp.compIndex).h,
          (cfg.comp scomp.compIndex).v * my + j / (cfg.comp scomp.compIndex).h)))
      (fun a s s' hs => (compStep_inter cfg sc a mx my s s' hne hs).1) _ _ _ hcs
    dsimp only at hb ht
    exact ⟨by rw [hr.1, ht]; rfl, by rw [hr.2.1, hb]⟩

theorem scanLoop_inter (cfg : Cfg) (sc : ScanCtx) (d : DecState) (ls' : LoopSt)
    (hne : sc.comps.length ≠ 1) (h : scanLoop cfg sc d = .ok ls') :
    visits ls'.events =
      (List.range cfg.myy).flatMap (fun my =>
        (List.range cfg.mxx).flatMap (fun mx => interChunk cfg sc my mx)) := by
  unfold scanLoop at h
  have hrow : ∀ (my : Nat) (s s' : LoopSt), rowStep cfg sc my s = .ok s' →
      visits s'.events = visits s.events ++
        (List.range cfg.mxx).flatMap (fun mx => interChunk cfg sc my mx) := by
    intro my s s' hs
    unfold rowStep at hs
    exact foldE_trace _ (fun ls => visits ls.events) (fun mx => interChunk cfg sc my mx)
      (fun a s s' hstep => (mcuStep_inter cfg sc my a s s' hne hstep).1) _ _ _ hs
  have ht := foldE_trace _ (fun ls => visits ls.events)
    (fun my => (List.range cfg.mxx).flatMap (fun mx => interChunk cfg sc my mx))
    hrow _ _ _ h
  dsimp only at ht
  simpa [visits] using ht

/-- C2.  Traversal order: in a scan with more than one participating
component, the `j`-th block of component `i` of the MCU at `(mx, my)`
has block coordinates `(hi*mx + j % hi, vi*my + j / hi)`, MCUs being
visited in raster order; in a scan with exactly one component, blocks
are visited in plain raster order over the grid of width `mxx*hi`
(coordinates `(k % q, k / q)` of the running block counter), a block
whose top-left pixel lies outside the image being skipped; and such a
skipped block consumes nothing: the step only advances the block
counter, leaving the decoder state (all oracle streams included) and
the trace untouched. -/
theorem traversal_spec (cfg : Cfg) (sc : ScanCtx) :
    (∀ (d : DecState) (ls' : LoopSt), 1 < sc.comps.length →
      scanLoop cfg sc d = .ok ls' →
      visits ls'.events =
        (List.range cfg.myy).flatMap (fun my =>
          (List.range cfg.mxx).flatMap (fun mx => interChunk cfg sc my mx))) ∧
    (∀ (scomp : ScanComp) (d : DecState) (ls' : LoopSt), sc.comps = [scomp] →
      scanLoop cfg sc d = .ok ls' →
      visits ls'.events =
        (List.range
            (cfg.myy * (cfg.mxx *
              ((cfg.comp scomp.compIndex).h * (cfg.comp scomp.compIndex).v)))).flatMap
          (singleChunk cfg scomp)) ∧
    (∀ (scomp : ScanComp) (mx my j : Nat) (ls : LoopSt), sc.comps.length = 1 →
      (ls.blockCount % (cfg.mxx * (cfg.comp scomp.compIndex).h) * 8 ≥ cfg.width ∨
       ls.blockCount / (cfg.mxx * (cfg.comp scomp.compIndex).h) * 8 ≥ cfg.height) →
      blockStep cfg sc scomp mx my j ls = .ok { ls with blockCount := ls.blockCount + 1 }) := by
  refine ⟨?_, ?_, ?_⟩
  · intro d ls' hgt h
    exact scanLoop_inter cfg sc d ls' (by omega) h
  · intro scomp d ls' hcomps h
    exact (scanLoop_single cfg sc scomp d ls' hcomps h).1
  · intro scomp mx my j ls hone hskip
    unfold blockStep
    dsimp only
    rw [if_neg (by omega), if_pos hskip]

/-- The frame configuration of the C2 interleaved witness: an 8x8
two-component image with 1x1 sampling, one MCU of two blocks. -/
def cfgI : Cfg where
  nComp := 2
  comp := fun j => ⟨j + 1, 1, 1, 0⟩
  width := 8
  height := 8
  ri := 0
  progressive := true
  quant := fun _ _ => 1
  idct := id
  toRGB := fun y _ _ => (y, y, y)

/-- An interleaved DC scan over both components. -/
def scI : ScanCtx := ⟨[⟨0, 0, 0⟩, ⟨1, 0, 0⟩], 0, 0, 0, 0⟩

/-- Streams driving two DC-only block decodes. -/
def dI : DecState :=
  ⟨[0, 0], [], [], [0, 0], [], 0, 0, fun _ => 0, fun _ => zeroBlock, fun _ => 0⟩

/-- A non-interleaved AC scan over the first component. -/
def scS : ScanCtx := ⟨[⟨0, 0, 0⟩], 1, 63, 0, 0⟩

/-- Streams driving one AC block decode that hits an immediate
end-of-band. -/
def dS : DecState :=
  ⟨[0], [], [], [], [], 0, 0, fun _ => 0, fun _ => zeroBlock, fun _ => 0⟩

/-- The frame configuration of the C2 single-component witnesses: an
8x8 image whose single-component MCU covers out-of-range blocks. -/
def cfgSk : Cfg where
  nComp := 3
  comp := fun j => if j = 0 then ⟨1, 2, 2, 0⟩ else ⟨j + 1, 1, 1, 0⟩
  width := 8
  height := 8
  ri := 0
  progressive := true
  quant := fun _ _ => 1
  idct := id
  toRGB := fun y _ _ => (y, y, y)

/-- A loop state positioned at the out-of-range block counter 1. -/
def lsSk : LoopSt := ⟨dS, 1, 0, rst0Marker, []⟩

set_option maxHeartbeats 2000000 in
/-- C2 witness: the three traversal rules evaluated on concrete scans. -/
theorem traversal_spec_witness :
    visits (okOr (scanLoop cfgI scI dI) ⟨dI, 0, 0, 0, []⟩).events =
      (List.range cfgI.myy).flatMap (fun my =>
        (List.range cfgI.mxx).flatMap (fun mx => interChunk cfgI scI my mx)) ∧
    visits (okOr (scanLoop cfgI scS dS) ⟨dS, 0, 0, 0, []⟩).events =
      (List.range
          (cfgI.myy * (cfgI.mxx *
            ((cfgI.comp (0 : Nat)).h * (cfgI.comp (0 : Nat)).v)))).flatMap
        (singleChunk cfgI ⟨0, 0, 0⟩) ∧
    blockStep cfgSk scS ⟨0, 0, 0⟩ 0 0 1 lsSk = .ok { lsSk with blockCount := 2 } := by
  refine ⟨?_, ?_, ?_⟩
  · exact (traversal_spec cfgI scI).1 dI _ (by decide) rfl
  · exact (traversal_spec cfgI scS).2.1 ⟨0, 0, 0⟩ dS _ rfl rfl
  · exact (traversal_spec cfgSk scS).2.2 ⟨0, 0, 0⟩ 0 0 1 lsSk (by decide) (by decide)

theorem foldE_append {α : Type} (f : α → LoopSt → Except JErr LoopSt) :
    ∀ (l1 l2 : List α) (s : LoopSt), foldE f (l1 ++ l2) s =
      match foldE f l1 s with
      | .ok s1 => foldE f l2 s1
      | .error e => .error e := by
  intro l1
  induction l1 with
  | nil =>
    intro l2 s
    simp [foldE]
  | cons a t ih =>
    intro l2 s
    rcases hf : f a s with e | s1 <;> simp [foldE, hf, ih]

theorem foldE_range_trace_ex {β χ : Type} (f : Nat → LoopSt → Except JErr LoopSt)
    (ev : LoopSt → List β) (c : Nat → χ → List β) (P : Nat → χ → Prop) (x0 : χ) :
    ∀ n : Nat, (∀ a s s', a < n → f a s = .ok s' →
        ∃ x : χ, P a x ∧ ev s' = ev s ++ c a x) →
      ∀ s s' : LoopSt, foldE f (List.range n) s = .ok s' →
      ∃ g : Nat → χ, (∀ i, i < n → P i (g i)) ∧
        ev s' = ev s ++ (List.range n).flatMap (fun i => c i (g i)) := by
  intro n
  induction n with
  | zero =>
    intro _ s s' h
    simp only [List.range_zero, foldE] at h
    cases h
    exact ⟨fun _ => x0, fun i hi => absurd hi (Nat.not_lt_zero i), by simp⟩
  | succ n ih =>
    intro hstep s s' h
    rw [List.range_succ, foldE_append] at h
    rcases h1 : foldE f (List.range n) s with e | s1
    · rw [h1] at h
      exact absurd h (by simp)
    rw [h1] at h
    dsimp only at h
    unfold foldE at h
    rcases hf : f n s1 with e | s2
    · rw [hf] at h
      exact absurd h (by simp)
    rw [hf] at h
    dsimp only at h
    cases h
    obtain ⟨g0, hg0, he0⟩ :=
      ih (fun a s s' ha hfa => hstep a s s' (Nat.lt_succ_of_lt ha) hfa) s s1 h1
    obtain ⟨x, hx, hex⟩ := hstep n s1 s' (Nat.lt_succ_self n) hf
    refine ⟨fun i => if i = n then x else g0 i, ?_, ?_⟩
    · intro i hi
      by_cases hin : i = n
      · subst hin
        simpa using hx
      · simpa [if_neg hin] using hg0 i (by omega)
    · have hF : (List.range n).flatMap (fun i => c i (if i = n then x else g0 i)) =
          (List.range n).flatMap (fun i => c i (g0 i)) := by
        apply List.flatMap_congr
        intro i hi
        rw [if_neg (by simp only [List.mem_range] at hi; omega)]
      rw [List.range_succ, List.flatMap_append, hF, hex, he0]
      simp

theorem int16_dim (n : Nat) (h : n < 32768) : int16 (n : Int) = (n : Int) :=
  int16_eq_self (Int.ofNat_nonneg n) (by exact_mod_cast h)

theorem int16_coord (mx : Nat) :
    int16 ((mx * 8 * 2 - mx * 8 * 2 % 16 : Nat) : Int) =
      int16 ((16 * mx : Nat) : Int) := by
  have h2 : mx * 8 * 2 - mx * 8 * 2 % 16 = 16 * mx := by omega
  rw [h2]

/-- The full event effect of decoding one block of a baseline scan: a
visit, and for the Cr component also the sink invocation with the packed
pixels of some cell buffer. -/
theorem decodeAt_events_base (cfg : Cfg) (sc : ScanCtx) (ci hi bx byi : Nat)
    (ls ls' : LoopSt) (hprog : cfg.progressive = false)
    (h : decodeAt cfg sc ci hi bx byi ls = .ok ls') :
    (ci ≠ 2 → ls'.events = ls.events ++ [.visit ci bx byi]) ∧
    (ci = 2 → ∃ cell : Nat → Nat, ls'.events = ls.events ++
      [.visit 2 bx byi,
       .emit (emitPixels cfg cell)
         (int16 ((bx * 8 * 2 - bx * 8 * 2 % 16 : Nat) : Int))
         (int16 ((byi * 8 * 2 - byi * 8 * 2 % 16 : Nat) : Int))
         16 16 (int16 (cfg.width : Int)) (int16 (cfg.height : Int))]) := by
  unfold decodeAt at h
  dsimp only at h
  simp only [hprog, Bool.false_eq_true, if_false] at h
  rcases hdec : (if sc.ah ≠ 0 then refine sc.zigStart sc.zigEnd (2 ^ sc.al) zeroBlock ls.d
      else firstPassBlock sc ci zeroBlock ls.d) with e | p
  · rw [hdec] at h
    exact absurd h (by simp)
  obtain ⟨b1, d1⟩ := p
  rw [hdec] at h
  dsimp only at h
  rcases hrec : reconstructBlock cfg b1 ci with e | dst
  · rw [hrec] at h
    exact absurd h (by simp)
  rw [hrec] at h
  dsimp only at h
  by_cases h0 : ci = 0
  · rw [if_pos h0] at h
    cases h
    exact ⟨fun _ => rfl, fun h2 => absurd (h0.symm.trans h2) (by decide)⟩
  rw [if_neg h0] at h
  by_cases h1 : ci = 1
  · rw [if_pos h1] at h
    cases h
    exact ⟨fun _ => rfl, fun h2 => absurd (h1.symm.trans h2) (by decide)⟩
  rw [if_neg h1] at h
  by_cases h2 : ci = 2
  · rw [if_pos h2] at h
    cases h
    subst h2
    refine ⟨fun hne => absurd rfl hne, fun _ => ?_⟩
    exact ⟨chromaFill 2 d1.sbuf (bx * 8 * 2 % 16) (byi * 8 * 2 % 16) dst, by simp⟩
  · rw [if_neg h2] at h
    cases h
    exact ⟨fun _ => rfl, fun hc => absurd hc h2⟩

/-- The event trace of one MCU of a baseline 4:2:0 scan: the four luma
blocks of the 16x16 cell, the Cb and Cr blocks, and the single sink
invocation with the cell's packed pixels, its top-left pixel coordinate,
the fixed 16x16 extent and the image dimensions. -/
def mcuChunk (cfg : Cfg) (my mx : Nat) (px : List Nat) : List Ev :=
  [.visit 0 (2 * mx) (2 * my), .visit 0 (2 * mx + 1) (2 * my),
   .visit 0 (2 * mx) (2 * my + 1), .visit 0 (2 * mx + 1) (2 * my + 1),
   .visit 1 mx my, .visit 2 mx my,
   .emit px (int16 ((16 * mx : Nat) : Int)) (int16 ((16 * my : Nat) : Int)) 16 16
     (int16 (cfg.width : Int)) (int16 (cfg.height : Int))]

theorem blockStep_events_inter (cfg : Cfg) (sc : ScanCtx) (scomp : ScanComp)
    (mx my j : Nat) (ls ls' : LoopSt)
    (hprog : cfg.progressive = false)
    (hn1 : sc.comps.length ≠ 1)
    (hne2 : scomp.compIndex ≠ 2)
    (h : blockStep cfg sc scomp mx my j ls = .ok ls') :
    ls'.events = ls.events ++
      [.visit scomp.compIndex
        ((cfg.comp scomp.compIndex).h * mx + j % (cfg.comp scomp.compIndex).h)
        ((cfg.comp scomp.compIndex).v * my + j / (cfg.comp scomp.compIndex).h)] := by
  unfold blockStep at h
  rw [if_pos hn1] at h
  exact (decodeAt_events_base cfg sc scomp.compIndex ((cfg.comp scomp.compIndex).h)
    ((cfg.comp scomp.compIndex).h * mx + j % (cfg.comp scomp.compIndex).h)
    ((cfg.comp scomp.compIndex).v * my + j / (cfg.comp scomp.compIndex).h)
    ls ls' hprog h).1 hne2

theorem compStep_events0 (cfg : Cfg) (sc : ScanCtx) (s0 : ScanComp)
    (mx my : Nat) (ls ls' : LoopSt)
    (hprog : cfg.progressive = false) (hn1 : sc.comps.length ≠ 1)
    (hci0 : s0.compIndex = 0)
    (hh0 : (cfg.comp 0).h = 2) (hv0 : (cfg.comp 0).v = 2)
    (h : compStep cfg sc mx my s0 ls = .ok ls') :
    ls'.events = ls.events ++
      [.visit 0 (2 * mx) (2 * my), .visit 0 (2 * mx + 1) (2 * my),
       .visit 0 (2 * mx) (2 * my + 1), .visit 0 (2 * mx + 1) (2 * my + 1)] := by
  unfold compStep at h
  rw [hci0, hh0, hv0] at h
  have ht := foldE_trace (fun j ls => blockStep cfg sc s0 mx my j ls)
    (fun ls => ls.events)
    (fun j => [Ev.visit 0 (2 * mx + j % 2) (2 * my + j / 2)])
    (fun j s s' hs => by
      have hb := blockStep_events_inter cfg sc s0 mx my j s s' hprog hn1
        (by rw [hci0]; decide) hs
      rw [hci0, hh0, hv0] at hb
      exact hb)
    (List.range (2 * 2)) ls ls' h
  dsimp only at ht
  rw [ht, show List.range (2 * 2) = [0, 1, 2, 3] from rfl]
  simp

theorem compStep_events1 (cfg : Cfg) (sc : ScanCtx) (s1 : ScanComp)
    (mx my : Nat) (ls ls' : LoopSt)
    (hprog : cfg.progressive = false) (hn1 : sc.comps.length ≠ 1)
    (hci1 : s1.compIndex = 1)
    (hh1 : (cfg.comp 1).h = 1) (hv1 : (cfg.comp 1).v = 1)
    (h : compStep cfg sc mx my s1 ls = .ok ls') :
    ls'.events = ls.events ++ [.visit 1 mx my] := by
  unfold compStep at h
  rw [hci1, hh1, hv1, show List.range (1 * 1) = [0] from rfl] at h
  unfold foldE at h
  rcases hb : blockStep cfg sc s1 mx my 0 ls with e | t1
  · rw [hb] at h
    exact absurd h (by simp)
  rw [hb] at h
  dsimp only at h
  cases h
  have hv := blockStep_events_inter cfg sc s1 mx my 0 ls _ hprog hn1
    (by rw [hci1]; decide) hb
  rw [hci1, hh1, hv1] at hv
  rw [hv]
  norm_num

theorem compStep_events2 (cfg : Cfg) (sc : ScanCtx) (s2 : ScanComp)
    (mx my : Nat) (ls ls' : LoopSt)
    (hprog : cfg.progressive = false) (hn1 : sc.comps.length ≠ 1)
    (hci2 : s2.compIndex = 2)
    (hh2 : (cfg.comp 2).h = 1) (hv2 : (cfg.comp 2).v = 1)
    (h : compStep cfg sc mx my s2 ls = .ok ls') :
    ∃ cell : Nat → Nat, ls'.events = ls.events ++
      [.visit 2 mx my,
       .emit (emitPixels cfg cell) (int16 ((16 * mx : Nat) : Int))
         (int16 ((16 * my : Nat) : Int)) 16 16
         (int16 (cfg.width : Int)) (int16 (cfg.height : Int))] := by
  unfold compStep at h
  rw [hci2, hh2, hv2, show List.range (1 * 1) = [0] from rfl] at h
  unfold foldE at h
  rcases hb : blockStep cfg sc s2 mx my 0 ls with e | t1
  · rw [hb] at h
    exact absurd h (by simp)
  rw [hb] at h
  dsimp only at h
  cases h
  unfold blockStep at hb
  rw [if_pos hn1] at hb
  rw [hci2, hh2, hv2] at hb
  rw [show 1 * mx + 0 % 1 = mx from by omega, show 1 * my + 0 / 1 = my from by omega] at hb
  obtain ⟨cell, hev⟩ := (decodeAt_events_base cfg sc 2 1 mx my ls _ hprog hb).2 rfl
  rw [int16_coord mx, int16_coord my] at hev
  exact ⟨cell, hev⟩

theorem mcuStep_emit (cfg : Cfg) (sc : ScanCtx) (s0 s1 s2 : ScanComp)
    (my mx : Nat) (ls ls' : LoopSt)
    (hprog : cfg.progressive = false)
    (hcomps : sc.comps = [s0, s1, s2])
    (hci0 : s0.compIndex = 0) (hci1 : s1.compIndex = 1) (hci2 : s2.compIndex = 2)
    (hh0 : (cfg.comp 0).h = 2) (hv0 : (cfg.comp 0).v = 2)
    (hh1 : (cfg.comp 1).h = 1) (hv1 : (cfg.comp 1).v = 1)
    (hh2 : (cfg.comp 2).h = 1) (hv2 : (cfg.comp 2).v = 1)
    (h : mcuStep cfg sc my mx ls = .ok ls') :
    ∃ px : List Nat, (∃ cell : Nat → Nat, px = emitPixels cfg cell) ∧
      ls'.events = ls.events ++ mcuChunk cfg my mx px := by
  have hn1 : sc.comps.length ≠ 1 := by rw [hcomps]; simp
  unfold mcuStep at h
  rw [hcomps] at h
  rcases hf : foldE (fun scomp ls => compStep cfg sc mx my scomp ls) [s0, s1, s2] ls
    with e | ls3
  · rw [hf] at h
    exact absurd h (by simp)
  rw [hf] at h
  dsimp only at h
  obtain ⟨hsk, -, -⟩ := restartCheck_skeleton cfg _ _ h
  unfold foldE at hf
  rcases hc0 : compStep cfg sc mx my s0 ls with e | ls1
  · rw [hc0] at hf
    exact absurd hf (by simp)
  rw [hc0] at hf
  dsimp only at hf
  unfold foldE at hf
  rcases hc1 : compStep cfg sc mx my s1 ls1 with e | ls2
  · rw [hc1] at hf
    exact absurd hf (by simp)
  rw [hc1] at hf
  dsimp only at hf
  unfold foldE at hf
  rcases hc2 : compStep cfg sc mx my s2 ls2 with e | ls3x
  · rw [hc2] at hf
    exact absurd hf (by simp)
  rw [hc2] at hf
  dsimp only at hf
  cases hf
  have e0 := compStep_events0 cfg sc s0 mx my ls ls1 hprog hn1 hci0 hh0 hv0 hc0
  have e1 := compStep_events1 cfg sc s1 mx my ls1 ls2 hprog hn1 hci1 hh1 hv1 hc1
  obtain ⟨cell, e2⟩ := compStep_events2 cfg sc s2 mx my ls2 ls3 hprog hn1 hci2 hh2 hv2
    hc2
  refine ⟨emitPixels cfg cell, ⟨cell, rfl⟩, ?_⟩
  rw [hsk]
  dsimp only
  rw [e2, e1, e0]
  simp [mcuChunk]

theorem rowStep_emit (cfg : Cfg) (sc : ScanCtx) (s0 s1 s2 : ScanComp)
    (my : Nat) (ls ls' : LoopSt)
    (hprog : cfg.progressive = false)
    (hcomps : sc.comps = [s0, s1, s2])
    (hci0 : s0.compIndex = 0) (hci1 : s1.compIndex = 1) (hci2 : s2.compIndex = 2)
    (hh0 : (cfg.comp 0).h = 2) (hv0 : (cfg.comp 0).v = 2)
    (hh1 : (cfg.comp 1).h = 1) (hv1 : (cfg.comp 1).v = 1)
    (hh2 : (cfg.comp 2).h = 1) (hv2 : (cfg.comp 2).v = 1)
    (h : rowStep cfg sc my ls = .ok ls') :
    ∃ g : Nat → List Nat,
      (∀ mx, mx < cfg.mxx → ∃ cell : Nat → Nat, g mx = emitPixels cfg cell) ∧
      ls'.events = ls.events ++
        (List.range cfg.mxx).flatMap (fun mx => mcuChunk cfg my mx (g mx)) := by
  unfold rowStep at h
  have ht := foldE_range_trace_ex (fun mx ls => mcuStep cfg sc my mx ls)
    (fun ls => ls.events) (fun mx px => mcuChunk cfg my mx px)
    (fun _ px => ∃ cell : Nat → Nat, px = emitPixels cfg cell) []
    cfg.mxx
    (fun mx s s' hmx hs => mcuStep_emit cfg sc s0 s1 s2 my mx s s' hprog hcomps
      hci0 hci1 hci2 hh0 hv0 hh1 hv1 hh2 hv2 hs)
    ls ls' h
  obtain ⟨g, hg, he⟩ := ht
  dsimp only at he
  exact ⟨g, fun mx hmx => hg mx hmx, he⟩

/-- C5, amended: for every baseline scan with the 4:2:0 YCbCr geometry
(a three-component scan whose luma component samples 2x2 and whose
chroma components sample 1x1), a successful decode loop produces
exactly the raster-ordered MCU traces: per 16x16 cell, the four luma
block visits, the Cb and the Cr visit, and then exactly one sink
invocation carrying the 256 packed 5-6-5 pixels of some cell buffer,
the fixed 16x16 extent, and the `int16` truncations of the cell's
16-aligned top-left coordinate and of the image's width and height.
The truncation is the identity only inside the int16 range: for images
wider or taller than 32767 pixels the sink does not receive the overall
dimensions, and the reported coordinates wrap (see the
counterexample). -/
theorem emit_spec (cfg : Cfg) (sc : ScanCtx) (s0 s1 s2 : ScanComp) (d : DecState)
    (ls' : LoopSt)
    (hprog : cfg.progressive = false)
    (hcomps : sc.comps = [s0, s1, s2])
    (hci0 : s0.compIndex = 0) (hci1 : s1.compIndex = 1) (hci2 : s2.compIndex = 2)
    (hh0 : (cfg.comp 0).h = 2) (hv0 : (cfg.comp 0).v = 2)
    (hh1 : (cfg.comp 1).h = 1) (hv1 : (cfg.comp 1).v = 1)
    (hh2 : (cfg.comp 2).h = 1) (hv2 : (cfg.comp 2).v = 1)
    (hrun : scanLoop cfg sc d = .ok ls') :
    ∃ pxf : Nat → Nat → List Nat,
      (∀ my mx, my < cfg.myy → mx < cfg.mxx →
        ∃ cell : Nat → Nat, pxf my mx = emitPixels cfg cell) ∧
      ls'.events = (List.range cfg.myy).flatMap (fun my =>
        (List.range cfg.mxx).flatMap (fun mx => mcuChunk cfg my mx (pxf my mx))) := by
  unfold scanLoop at hrun
  have ht := foldE_range_trace_ex (fun my ls => rowStep cfg sc my ls)
    (fun ls => ls.events)
    (fun my g => (List.range cfg.mxx).flatMap (fun mx => mcuChunk cfg my mx (g mx)))
    (fun _ g => ∀ mx, mx < cfg.mxx → ∃ cell : Nat → Nat, g mx = emitPixels cfg cell)
    (fun _ => [])
    cfg.myy
    (fun my s s' hmyl hs => rowStep_emit cfg sc s0 s1 s2 my s s' hprog hcomps
      hci0 hci1 hci2 hh0 hv0 hh1 hv1 hh2 hv2 hs)
    ⟨d, 0, 0, rst0Marker, []⟩ ls' hrun
  obtain ⟨g, hg, he⟩ := ht
  dsimp only at he
  exact ⟨g, fun my mx hmy hmx => hg my hmy mx hmx, by simpa using he⟩

/-- One fold step whose result is known lets the fold continue from the
next state. -/
theorem foldE_cons_ok {α : Type} (f : α → LoopSt → Except JErr LoopSt) (a : α)
    (l : List α) (s s1 : LoopSt) (h : f a s = .ok s1) :
    foldE f (a :: l) s = foldE f l s1 := by
  show (match f a s with
        | .error e => .error e
        | .ok ls => foldE f l ls) = foldE f l s1
  rw [h]

theorem foldE_nil {α : Type} (f : α → LoopSt → Except JErr LoopSt) (s : LoopSt) :
    foldE f [] s = .ok s := rfl

/-- The frame configuration of the C5 witness: a 16x16 baseline 4:2:0
image, one MCU of six blocks. -/
def cfgB : Cfg where
  nComp := 3
  comp := fun j =>
    if j = 0 then ⟨1, 2, 2, 0⟩ else if j = 1 then ⟨2, 1, 1, 0⟩ else ⟨3, 1, 1, 0⟩
  width := 16
  height := 16
  ri := 0
  progressive := false
  quant := fun _ _ => 1
  idct := fun _ => zeroBlock
  toRGB := fun _ _ _ => (0, 0, 0)

/-- The interleaved three-component baseline scan of the C5 witness. -/
def scB : ScanCtx := ⟨[⟨0, 0, 0⟩, ⟨1, 0, 0⟩, ⟨2, 0, 0⟩], 0, 63, 0, 0⟩

/-- Streams driving six block decodes, each an all-zero DC value
followed by an immediate end-of-band. -/
def dB : DecState :=
  ⟨[0, 0, 0, 0, 0, 0, 0, 0, 0, 0, 0, 0], [], [], [0, 0, 0, 0, 0, 0], [], 0, 0,
   fun _ => 0, fun _ => zeroBlock, fun _ => 0⟩

/-- The reconstruction output of each witness block: all-zero
coefficients through the constant inverse DCT. -/
def dstB : List Nat := (List.range blockSize).map fun i => levelShift (zeroBlock i)

/-- The cell buffer of the witness after each of the six block
placements. -/
def sB1 : Nat → Nat := lumaFill (fun _ => 0) 0 0 dstB

def sB2 : Nat → Nat := lumaFill sB1 8 0 dstB

def sB3 : Nat → Nat := lumaFill sB2 0 8 dstB

def sB4 : Nat → Nat := lumaFill sB3 8 8 dstB

def sB5 : Nat → Nat := chromaFill 1 sB4 0 0 dstB

def sB6 : Nat → Nat := chromaFill 2 sB5 0 0 dstB

/-- The DC predictor array after each of the six witness blocks. -/
def dcB1 : Nat → Int := Function.update (fun _ => 0) 0 0

def dcB2 : Nat → Int := Function.update dcB1 0 0

def dcB3 : Nat → Int := Function.update dcB2 0 0

def dcB4 : Nat → Int := Function.update dcB3 0 0

def dcB5 : Nat → Int := Function.update dcB4 1 0

def dcB6 : Nat → Int := Function.update dcB5 2 0

/-- The witness loop states after zero to six block decodes, and after
the MCU counter increment. -/
def lsB0 : LoopSt := ⟨dB, 0, 0, rst0Marker, []⟩

def lsB1 : LoopSt :=
  ⟨⟨[0, 0, 0, 0, 0, 0, 0, 0, 0, 0], [], [], [0, 0, 0, 0, 0], [], 0, 0, dcB1,
    fun _ => zeroBlock, sB1⟩, 0, 0, rst0Marker, [.visit 0 0 0]⟩

def lsB2 : LoopSt :=
  ⟨⟨[0, 0, 0, 0, 0, 0, 0, 0], [], [], [0, 0, 0, 0], [], 0, 0, dcB2,
    fun _ => zeroBlock, sB2⟩, 0, 0, rst0Marker, [.visit 0 0 0, .visit 0 1 0]⟩

def lsB3 : LoopSt :=
  ⟨⟨[0, 0, 0, 0, 0, 0], [], [], [0, 0, 0], [], 0, 0, dcB3,
    fun _ => zeroBlock, sB3⟩, 0, 0, rst0Marker,
   [.visit 0 0 0, .visit 0 1 0, .visit 0 0 1]⟩

def lsB4 : LoopSt :=
  ⟨⟨[0, 0, 0, 0], [], [], [0, 0], [], 0, 0, dcB4,
    fun _ => zeroBlock, sB4⟩, 0, 0, rst0Marker,
   [.visit 0 0 0, .visit 0 1 0, .visit 0 0 1, .visit 0 1 1]⟩

def lsB5 : LoopSt :=
  ⟨⟨[0, 0], [], [], [0], [], 0, 0, dcB5, fun _ => zeroBlock, sB5⟩, 0, 0, rst0Marker,
   [.visit 0 0 0, .visit 0 1 0, .visit 0 0 1, .visit 0 1 1, .visit 1 0 0]⟩

def lsB6 : LoopSt :=
  ⟨⟨[], [], [], [], [], 0, 0, dcB6, fun _ => zeroBlock, sB6⟩, 0, 0, rst0Marker,
   [.visit 0 0 0, .visit 0 1 0, .visit 0 0 1, .visit 0 1 1, .visit 1 0 0,
    .visit 2 0 0, .emit (emitPixels cfgB sB6) 0 0 16 16 16 16]⟩

def lsFin : LoopSt :=
  ⟨⟨[], [], [], [], [], 0, 0, dcB6, fun _ => zeroBlock, sB6⟩, 0, 1, rst0Marker,
   [.visit 0 0 0, .visit 0 1 0, .visit 0 0 1, .visit 0 1 1, .visit 1 0 0,
    .visit 2 0 0, .emit (emitPixels cfgB sB6) 0 0 16 16 16 16]⟩

set_option maxHeartbeats 1000000 in
/-- The witness scan evaluated step by step through its single MCU. -/
theorem scanLoop_dB_run : scanLoop cfgB scB dB = .ok lsFin := by
  have h1 : blockStep cfgB scB ⟨0, 0, 0⟩ 0 0 0 lsB0 = .ok lsB1 := rfl
  have h2 : blockStep cfgB scB ⟨0, 0, 0⟩ 0 0 1 lsB1 = .ok lsB2 := rfl
  have h3 : blockStep cfgB scB ⟨0, 0, 0⟩ 0 0 2 lsB2 = .ok lsB3 := rfl
  have h4 : blockStep cfgB scB ⟨0, 0, 0⟩ 0 0 3 lsB3 = .ok lsB4 := rfl
  have h5 : blockStep cfgB scB ⟨1, 0, 0⟩ 0 0 0 lsB4 = .ok lsB5 := rfl
  have h6 : blockStep cfgB scB ⟨2, 0, 0⟩ 0 0 0 lsB5 = .ok lsB6 := rfl
  have hc0 : compStep cfgB scB 0 0 ⟨0, 0, 0⟩ lsB0 = .ok lsB4 := by
    unfold compStep
    rw [show List.range ((cfgB.comp (⟨0, 0, 0⟩ : ScanComp).compIndex).h *
          (cfgB.comp (⟨0, 0, 0⟩ : ScanComp).compIndex).v) = [0, 1, 2, 3] from rfl,
      foldE_cons_ok (fun j ls => blockStep cfgB scB ⟨0, 0, 0⟩ 0 0 j ls) 0 [1, 2, 3]
        lsB0 lsB1 h1,
      foldE_cons_ok (fun j ls => blockStep cfgB scB ⟨0, 0, 0⟩ 0 0 j ls) 1 [2, 3]
        lsB1 lsB2 h2,
      foldE_cons_ok (fun j ls => blockStep cfgB scB ⟨0, 0, 0⟩ 0 0 j ls) 2 [3]
        lsB2 lsB3 h3,
      foldE_cons_ok (fun j ls => blockStep cfgB scB ⟨0, 0, 0⟩ 0 0 j ls) 3 []
        lsB3 lsB4 h4,
      foldE_nil]
  have hc1 : compStep cfgB scB 0 0 ⟨1, 0, 0⟩ lsB4 = .ok lsB5 := by
    unfold compStep
    rw [show List.range ((cfgB.comp (⟨1, 0, 0⟩ : ScanComp).compIndex).h *
          (cfgB.comp (⟨1, 0, 0⟩ : ScanComp).compIndex).v) = [0] from rfl,
      foldE_cons_ok (fun j ls => blockStep cfgB scB ⟨1, 0, 0⟩ 0 0 j ls) 0 []
        lsB4 lsB5 h5,
      foldE_nil]
  have hc2 : compStep cfgB scB 0 0 ⟨2, 0, 0⟩ lsB5 = .ok lsB6 := by
    unfold compStep
    rw [show List.range ((cfgB.comp (⟨2, 0, 0⟩ : ScanComp).compIndex).h *
          (cfgB.comp (⟨2, 0, 0⟩ : ScanComp).compIndex).v) = [0] from rfl,
      foldE_cons_ok (fun j ls => blockStep cfgB scB ⟨2, 0, 0⟩ 0 0 j ls) 0 []
        lsB5 lsB6 h6,
      foldE_nil]
  have hm : mcuStep cfgB scB 0 0 lsB0 = .ok lsFin := by
    unfold mcuStep
    rw [show scB.comps = [⟨0, 0, 0⟩, ⟨1, 0, 0⟩, ⟨2, 0, 0⟩] from rfl,
      foldE_cons_ok (fun scomp ls => compStep cfgB scB 0 0 scomp ls) ⟨0, 0, 0⟩
        [⟨1, 0, 0⟩, ⟨2, 0, 0⟩] lsB0 lsB4 hc0,
      foldE_cons_ok (fun scomp ls => compStep cfgB scB 0 0 scomp ls) ⟨1, 0, 0⟩
        [⟨2, 0, 0⟩] lsB4 lsB5 hc1,
      foldE_cons_ok (fun scomp ls => compStep cfgB scB 0 0 scomp ls) ⟨2, 0, 0⟩ []
        lsB5 lsB6 hc2,
      foldE_nil]
    rfl
  have hrow : rowStep cfgB scB 0 lsB0 = .ok lsFin := by
    unfold rowStep
    rw [show List.range cfgB.mxx = [0] from rfl,
      foldE_cons_ok (fun mx ls => mcuStep cfgB scB 0 mx ls) 0 [] lsB0 lsFin hm,
      foldE_nil]
  unfold scanLoop
  rw [show List.range cfgB.myy = [0] from rfl,
    foldE_cons_ok (fun my ls => rowStep cfgB scB my ls) 0 []
      ⟨dB, 0, 0, rst0Marker, []⟩ lsFin hrow,
    foldE_nil]

/-- C5 witness: the sink trace law evaluated on a one-MCU 16x16
baseline image whose decode emits exactly one packed pixel block. -/
theorem emit_spec_witness :
    ∃ pxf : Nat → Nat → List Nat,
      (∀ my mx, my < cfgB.myy → mx < cfgB.mxx →
        ∃ cell : Nat → Nat, pxf my mx = emitPixels cfgB cell) ∧
      lsFin.events = (List.range cfgB.myy).flatMap (fun my =>
        (List.range cfgB.mxx).flatMap (fun mx => mcuChunk cfgB my mx (pxf my mx))) :=
  emit_spec cfgB scB ⟨0, 0, 0⟩ ⟨1, 0, 0⟩ ⟨2, 0, 0⟩ dB lsFin
    rfl rfl rfl rfl rfl rfl rfl rfl rfl rfl rfl scanLoop_dB_run

/-- The frame configuration of the C5 counterexample: a baseline 4:2:0
frame 40000 pixels wide, a legal JPEG width beyond the int16 range. -/
def cfgW : Cfg where
  nComp := 3
  comp := fun j =>
    if j = 0 then ⟨1, 2, 2, 0⟩ else if j = 1 then ⟨2, 1, 1, 0⟩ else ⟨3, 1, 1, 0⟩
  width := 40000
  height := 16
  ri := 0
  progressive := false
  quant := fun _ _ => 1
  idct := fun _ => zeroBlock
  toRGB := fun _ _ _ => (0, 0, 0)

/-- Streams driving one Cr block decode of the wide frame. -/
def lsW : LoopSt :=
  ⟨⟨[0, 0], [], [], [0], [], 0, 0, fun _ => 0, fun _ => zeroBlock, fun _ => 0⟩,
   0, 0, rst0Marker, []⟩

/-- C5, counterexample.  On a baseline frame 40000 pixels wide -- legal
JPEG, but beyond the int16 range -- the sink invocation produced by the
Cr reconstruction path carries the wrapped width `int16 40000 = -25536`
rather than the overall image width, and the cell at block column 2048
reports the wrapped x-coordinate `-32768` instead of `32768`, so the
coordinates handed to the sink neither advance monotonically nor stay
16-aligned image offsets. -/
theorem emit_int16_wrap_cex :
    (∃ ls1 cell, decodeAt cfgW scB 2 1 0 0 lsW = .ok ls1 ∧
      ls1.events = [.visit 2 0 0,
        .emit (emitPixels cfgW cell) 0 0 16 16 (-25536) 16]) ∧
    (∃ ls2 cell, decodeAt cfgW scB 2 1 2048 0 lsW = .ok ls2 ∧
      ls2.events = [.visit 2 2048 0,
        .emit (emitPixels cfgW cell) (-32768) 0 16 16 (-25536) 16]) ∧
    (cfgW.width : Int) = 40000 ∧ int16 (cfgW.width : Int) = -25536 := by
  refine ⟨?_, ?_, rfl, by decide⟩
  · have hdec : decodeAt cfgW scB 2 1 0 0 lsW =
        .ok (okOr (decodeAt cfgW scB 2 1 0 0 lsW) lsW) := rfl
    obtain ⟨cell, hev⟩ :=
      (decodeAt_events_base cfgW scB 2 1 0 0 lsW _ rfl hdec).2 rfl
    refine ⟨_, cell, hdec, ?_⟩
    rw [hev,
      show int16 ((0 * 8 * 2 - 0 * 8 * 2 % 16 : Nat) : Int) = 0 from by decide,
      show int16 (cfgW.width : Int) = -25536 from by decide,
      show int16 (cfgW.height : Int) = 16 from by decide]
    rfl
  · have hdec : decodeAt cfgW scB 2 1 2048 0 lsW =
        .ok (okOr (decodeAt cfgW scB 2 1 2048 0 lsW) lsW) := rfl
    obtain ⟨cell, hev⟩ :=
      (decodeAt_events_base cfgW scB 2 1 2048 0 lsW _ rfl hdec).2 rfl
    refine ⟨_, cell, hdec, ?_⟩
    rw [hev,
      show int16 ((2048 * 8 * 2 - 2048 * 8 * 2 % 16 : Nat) : Int) = -32768
        from by decide,
      show int16 ((0 * 8 * 2 - 0 * 8 * 2 % 16 : Nat) : Int) = 0 from by decide,
      show int16 (cfgW.width : Int) = -25536 from by decide,
      show int16 (cfgW.height : Int) = 16 from by decide]
    rfl

/-- C10: the end-of-band run survives the start of a new scan.  The scan
header parser leaves `eobRun` untouched; the per-scan reset clears the
bit reader and the DC predictors but not `eobRun`, and `processSOS`
enters the decode loop in exactly that state.  A pending run suppresses
the AC decoding of an in-range block of a non-interleaved progressive
first-pass AC scan: the block's sole effect on the decoder state is the
counter decrement.  A restart marker check either leaves the state
unchanged or returns with `eobRun = 0`. -/
theorem eobRun_carry (cfg : Cfg) (baseline : Bool) (n : Nat) (d : DecState) :
    (∀ sc d1, processSOSHeader cfg baseline n d = .ok (sc, d1) →
      d1.eobRun = d.eobRun ∧
      (scanSetup d1).bitsA = 0 ∧
      (scanSetup d1).dc = (fun _ => 0) ∧
      (scanSetup d1).eobRun = d.eobRun ∧
      processSOS cfg baseline n d = scanLoop cfg sc (scanSetup d1)) ∧
    (∀ sc scomp mx my j ls, cfg.progressive = true → sc.ah = 0 →
      sc.comps = [scomp] → 1 ≤ sc.zigStart → sc.zigStart ≤ sc.zigEnd →
      0 < ls.d.eobRun →
      ¬ (ls.blockCount % (cfg.mxx * (cfg.comp scomp.compIndex).h) * 8 ≥ cfg.width ∨
         ls.blockCount / (cfg.mxx * (cfg.comp scomp.compIndex).h) * 8 ≥ cfg.height) →
      blockStep cfg sc scomp mx my j ls =
        .ok { ls with
              blockCount := ls.blockCount + 1
              events := ls.events ++ [.visit scomp.compIndex
                (ls.blockCount % (cfg.mxx * (cfg.comp scomp.compIndex).h))
                (ls.blockCount / (cfg.mxx * (cfg.comp scomp.compIndex).h))]
              d := { ls.d with eobRun := ls.d.eobRun - 1 } }) ∧
    (∀ ls ls', restartCheck cfg ls = .ok ls' → ls' = ls ∨ ls'.d.eobRun = 0) := by
  refine ⟨?_, ?_, ?_⟩
  · intro sc d1 h
    have hcomp : processSOS cfg baseline n d = scanLoop cfg sc (scanSetup d1) := by
      unfold processSOS
      rw [h]
    have heob : d1.eobRun = d.eobRun := by
      unfold processSOSHeader at h
      split at h
      · exact absurd h (by simp)
      split at h
      · exact absurd h (by simp)
      unfold readFull at h
      split at h
      · exact absurd h (by simp)
      simp only at h
      split at h
      · exact absurd h (by simp)
      split at h
      · exact absurd h (by simp)
      split at h
      · exact absurd h (by simp)
      split at h
      · exact absurd h (by simp)
      cases h
      rename_i hrf
      split at hrf
      · exact absurd hrf (by simp)
      · cases hrf
        rfl
    exact ⟨heob, rfl, rfl, heob, hcomp⟩
  · intro sc scomp mx my j ls hprog hah hcomps hzs hze hrun hbound
    unfold blockStep
    dsimp only
    rw [if_neg (by rw [hcomps]; simp)]
    rw [if_neg hbound]
    unfold decodeAt
    dsimp only
    rw [if_pos hprog]
    rw [if_neg (by rw [hah]; simp)]
    unfold firstPassBlock
    rw [if_neg (by omega)]
    unfold acPhase
    rw [if_pos ⟨hze, hrun⟩]
    dsimp only
    rw [if_pos hprog]
    rw [Function.update_eq_self]
  · intro ls ls' h
    unfold restartCheck at h
    split at h
    · rcases h1 : readFull 2 ls.d with e | p
      · rw [h1] at h
        exact absurd h (by simp)
      obtain ⟨tmp, d1⟩ := p
      rw [h1] at h
      dsimp only at h
      rcases h2 : (if tmp.getD 0 0 = 0xff ∧ tmp.getD 1 0 = 0x00 then readFull 2 d1
          else .ok (tmp, d1) : Except JErr (List Nat × DecState)) with e | p2
      · rw [h2] at h
        exact absurd h (by simp)
      obtain ⟨tmp2, d2⟩ := p2
      rw [h2] at h
      dsimp only at h
      split at h
      · exact absurd h (by simp)
      · cases h
        right
        rfl
    · cases h
      left
      rfl

/-- The frame configuration of the C10 witness: a progressive image
with a single declared component. -/
def cfgT : Cfg where
  nComp := 1
  comp := fun _ => ⟨1, 1, 1, 0⟩
  width := 8
  height := 8
  ri := 0
  progressive := true
  quant := fun _ _ => 1
  idct := id
  toRGB := fun y _ _ => (y, y, y)

/-- A decoder state holding a 6-byte AC-scan SOS payload and a pending
end-of-band run of 7 left over from an earlier scan. -/
def dT : DecState :=
  ⟨[], [], [], [], [1, 1, 0, 1, 63, 0], 0, 7, fun _ => 0, fun _ => zeroBlock,
   fun _ => 0⟩

/-- The decoder state after the SOS payload has been consumed. -/
def dT1 : DecState := { dT with byteS := [] }

/-- A loop state at the first in-range block, with the pending run. -/
def lsT : LoopSt := ⟨dT1, 0, 0, rst0Marker, []⟩

/-- C10 witness: the carried run evaluated on a concrete scan header, a
concrete suppressed block and a concrete restart. -/
theorem eobRun_carry_witness :
    (dT1.eobRun = dT.eobRun ∧
     (scanSetup dT1).bitsA = 0 ∧
     (scanSetup dT1).dc = (fun _ => 0) ∧
     (scanSetup dT1).eobRun = dT.eobRun ∧
     processSOS cfgT false 6 dT =
       scanLoop cfgT ⟨[⟨0, 0, 0⟩], 1, 63, 0, 0⟩ (scanSetup dT1)) ∧
    blockStep cfgT ⟨[⟨0, 0, 0⟩], 1, 63, 0, 0⟩ ⟨0, 0, 0⟩ 0 0 0 lsT =
      .ok ⟨{ dT1 with eobRun := 6 }, 1, 0, rst0Marker, [.visit 0 0 0]⟩ ∧
    (okOr (restartCheck cfgR lsR) lsR = lsR ∨
     (okOr (restartCheck cfgR lsR) lsR).d.eobRun = 0) := by
  refine ⟨?_, ?_, ?_⟩
  · exact (eobRun_carry cfgT false 6 dT).1 ⟨[⟨0, 0, 0⟩], 1, 63, 0, 0⟩ dT1 rfl
  · exact (eobRun_carry cfgT false 6 dT).2.1 ⟨[⟨0, 0, 0⟩], 1, 63, 0, 0⟩ ⟨0, 0, 0⟩
      0 0 0 lsT rfl rfl rfl (by decide) (by decide) (by decide) (by decide)
  · exact (eobRun_carry cfgR false 0 dT).2.2 lsR (okOr (restartCheck cfgR lsR) lsR) rfl

end JpegScan
